import Mathlib

/-!
# Verification of the safety-weighted street-routing engine

Shallow embedding of `street-routing-app/backend/app.py`: the hazard/lighting
point ingestion (`_load_hazards`, `_load_pedestrians`, `_save_hazards`,
`post_hazards`), the per-request danger-point collection of `route`
(including the in-place mutation of the module-level pedestrians cache),
the kernel-density edge cost model (`_edge_density`, `_edge_ped_stats`,
`_edge_weight`), and the A* search the route endpoint delegates to.

Modelling conventions:
* Python floats are modelled as exact arithmetic: data values (coordinates,
  scores, lengths, modification times) as `ℚ`, values produced by
  transcendental functions (`math.exp`, `math.sin`, …) as `ℝ`.
* GeoJSON features are modelled structurally (`GeoFeature`): a geometry type
  tag, a coordinate list, and the two score properties the code reads.
  Coordinate lists are assumed well formed where the code would otherwise
  raise out of a whole-file load.
* Graph nodes always carry coordinates (the `None` guards in the code are
  therefore dropped); every edge carries a length attribute, as guaranteed by
  `ox.add_edge_lengths` and §4.3 of the design.
-/

namespace StreetRouting

/-- A danger/pedestrian point as the backend stores it in memory:
`(lat, lon, score)` (see `_load_pedestrians`, `_load_hazards`). -/
abbrev Pt3 := ℚ × ℚ × ℚ

/-- A lighting point `(lat, lon)` (see the `lights_pts` collection in `route`). -/
abbrev Pt2 := ℚ × ℚ

/-- A GeoJSON feature as read by the backend: geometry type, coordinate list
(`lon` first, then `lat`), and the two properties the loaders consult. -/
structure GeoFeature where
  geomType : String
  coords : List ℚ
  safetyScore : Option ℚ
  score : Option ℚ
deriving DecidableEq, Repr

/-- `_load_hazards` line 210: `sc = 0.0 if sc < 0 else (1.0 if sc > 1.0 else sc)`. -/
def clamp01 (s : ℚ) : ℚ := if s < 0 then 0 else if 1 < s then 1 else s

/-- The sequential clamp used by `_load_pedestrians` (lines 558-559) and by the
`extra_danger` handling in `route` (lines 375-378):
`if s < 0: s = 0.0` followed by `if s > 1: s = 1.0`. -/
def pedClamp (s : ℚ) : ℚ :=
  let s1 := if s < 0 then 0 else s
  if 1 < s1 then 1 else s1

/-- `_save_hazards` line 228: `max(0.0, min(1.0, sc))`. -/
def clampSave (s : ℚ) : ℚ := max 0 (min 1 s)

/-- Raw (unclamped) score of a hazard feature:
`props.get("safety_score", props.get("score", 1.0))` (`_load_hazards` line 209,
`post_hazards` line 274). -/
def hazRawScore (f : GeoFeature) : ℚ := f.safetyScore.getD (f.score.getD 1)

/-- Raw (unclamped) score of a pedestrians feature:
`properties.get("safety_score", 0)` (`_load_pedestrians` line 552). -/
def pedRawScore (f : GeoFeature) : ℚ := f.safetyScore.getD 0

/-- `_load_hazards` (app.py lines 195-214): keep `Point` features with at least
two coordinates, read `(lat, lon) = (coords[1], coords[0])`, clamp the score. -/
def loadHazards (feats : List GeoFeature) : List Pt3 :=
  feats.filterMap fun f =>
    if f.geomType = "Point" ∧ 2 ≤ f.coords.length then
      some (f.coords.getD 1 0, f.coords.getD 0 0, clamp01 (hazRawScore f))
    else none

/-- The parsing loop of `_load_pedestrians` (app.py lines 547-561): keep `Point`
features, score defaults to 0, sequential clamp to `[0,1]`. -/
def pedsParse (feats : List GeoFeature) : List Pt3 :=
  feats.filterMap fun f =>
    if f.geomType = "Point" ∧ 2 ≤ f.coords.length then
      some (f.coords.getD 1 0, f.coords.getD 0 0, pedClamp (pedRawScore f))
    else none

/-- The `extra_danger` handling in `route` (app.py lines 371-379): each request
point `(lat, lon, score)` is appended with its score clamped to `[0,1]`. -/
def clampDanger (p : Pt3) : Pt3 := (p.1, p.2.1, pedClamp p.2.2)

/-- A hazard feature as `_save_hazards` writes it:
`{"geometry": {"coordinates": [lon, lat]}, "properties": {"score": clamped}}`. -/
structure StoredHaz where
  lon : ℚ
  lat : ℚ
  score : ℚ
deriving DecidableEq, Repr

/-- `_save_hazards` (app.py lines 217-233): the items (each `(lat, lon, score)`)
are written out as Point features with the score clamped via `max(0, min(1, s))`;
the file is replaced wholesale (`write_text`). -/
def saveHazards (items : List Pt3) : List StoredHaz :=
  items.map fun it => ⟨it.2.1, it.1, clampSave it.2.2⟩

/-- A request body accepted by `POST /hazards`: either a JSON list of
`{lat, lon, score}` points or a GeoJSON FeatureCollection. -/
inductive HazPayload where
  | plist (items : List Pt3)
  | fc (features : List GeoFeature)
deriving DecidableEq

/-- The item-collection loop of `post_hazards` (app.py lines 256-275): a list
payload is taken as is (scores unclamped here); a FeatureCollection keeps its
`Point` features with at least two coordinates and the raw score from
`safety_score`/`score`/default 1. -/
def parseHazPayload : HazPayload → List Pt3
  | .plist items => items
  | .fc feats =>
      feats.filterMap fun f =>
        if f.geomType = "Point" ∧ 2 ≤ f.coords.length then
          some (f.coords.getD 1 0, f.coords.getD 0 0, hazRawScore f)
        else none

/-- `post_hazards` (app.py lines 252-279): parse the payload and hand the items
to `_save_hazards`, which overwrites the stored collection. The previous store
contents are not consulted. -/
def postHazards (oldStore : List StoredHaz) (p : HazPayload) : List StoredHaz :=
  saveHazards (parseHazPayload p)

/-- Written from the claim's words (C10): "the Point features of that payload
with scores clamped to [0,1]" — for comparison with `postHazards`. -/
def claimPointsOf : HazPayload → List StoredHaz
  | .plist items => items.map fun it => ⟨it.2.1, it.1, clamp01 it.2.2⟩
  | .fc feats =>
      feats.filterMap fun f =>
        if f.geomType = "Point" ∧ 2 ≤ f.coords.length then
          some ⟨f.coords.getD 0 0, f.coords.getD 1 0, clamp01 (hazRawScore f)⟩
        else none

/-! ## The pedestrians cache and the danger set of a route request

`_PED_CACHE` (app.py line 520) maps to `PedCache`. `_load_pedestrians` returns
the very list object stored in the cache, and `route` then extends that object
in place (`ped_pts += _load_hazards()` and `ped_pts.append(...)`, lines
366-379), so the mutations are visible through the cache in later requests.
`routeDangerSet` models one request's danger-set collection together with the
resulting cache state. -/

/-- The pedestrians source file: its parsed features and its modification time
(`path.stat().st_mtime`). `none` models "no pedestrians file exists". -/
abbrev PedFile := Option (List GeoFeature × ℚ)

/-- `_PED_CACHE`: `none` initially, otherwise the cached point list and the
mtime it was built from. -/
abbrev PedCache := Option (List Pt3 × ℚ)

/-- `_load_pedestrians` (app.py lines 529-566): no file → `[]`; cache hit on
equal mtime → the cached list (the cache's own object); otherwise parse the
file (and store the parsed list in the cache). -/
def loadPedestrians : PedFile → PedCache → List Pt3
  | none, _ => []
  | some (feats, m), c =>
      match c with
      | some (pts, mc) => if mc = m then pts else pedsParse feats
      | none => pedsParse feats

/-- The danger-point collection of one `route` request (app.py lines 365-381):
`ped_pts = _load_pedestrians(); ped_pts += _load_hazards(); ped_pts.append(…)`
for each clamped `extra_danger` point. When a pedestrians file exists, the list
being extended IS the cached list object, so the cache afterwards holds the
fully extended list (hazards and ad-hoc points included). -/
def routeDangerSet (pfile : PedFile) (hazFeats : List GeoFeature) (extra : List Pt3)
    (c : PedCache) : List Pt3 × PedCache :=
  match pfile with
  | none => (loadHazards hazFeats ++ extra.map clampDanger, c)
  | some (feats, m) =>
      let base := loadPedestrians (some (feats, m)) c
      let used := base ++ loadHazards hazFeats ++ extra.map clampDanger
      (used, some (used, m))

/-- The sequential clamp agrees with the hazards-file clamp. -/
theorem pedClamp_eq_clamp01 (s : ℚ) : pedClamp s = clamp01 s := by
  unfold pedClamp clamp01
  rcases lt_or_le s 0 with h | h
  · simp [h, show ¬ (1:ℚ) < 0 by norm_num]
  · simp [not_lt.mpr h]

/-- The `max/min` clamp of `_save_hazards` agrees with the hazards-file clamp. -/
theorem clampSave_eq_clamp01 (s : ℚ) : clampSave s = clamp01 s := by
  unfold clampSave clamp01
  rcases lt_or_le s 0 with h | h
  · rw [if_pos h, min_eq_right (le_of_lt (lt_of_lt_of_le h zero_le_one)), max_eq_left h.le]
  · rw [if_neg (not_lt.mpr h)]
    rcases lt_or_le 1 s with h1 | h1
    · rw [if_pos h1, min_eq_left h1.le, max_eq_right zero_le_one]
    · rw [if_neg (not_lt.mpr h1), min_eq_right h1, max_eq_right h]

/-! ### Concrete two-request scenario for C4 -/

/-- Pedestrians file contents in the C4 scenario. -/
def c4PedFeats : List GeoFeature := [⟨"Point", [8, 47], some 1, none⟩]

/-- Hazards file contents in the C4 scenario. -/
def c4HazFeats : List GeoFeature := [⟨"Point", [9, 48], some 1, none⟩]

/-- First request: pedestrians file with mtime 5, cold cache, one ad-hoc
`extra_danger` point `(47, 9, 1)`. -/
def c4State1 : List Pt3 × PedCache :=
  routeDangerSet (some (c4PedFeats, 5)) c4HazFeats [(47, 9, 1)] none

/-- Second request: same pedestrians file (unchanged mtime), no ad-hoc points. -/
def c4State2 : List Pt3 × PedCache :=
  routeDangerSet (some (c4PedFeats, 5)) c4HazFeats [] c4State1.2

/-- C4 (code_bug evaluation): the first request's danger set is the claimed
union, but its ad-hoc `extra_danger` point survives into the second request's
danger set through the mutated pedestrians cache, so the second request's set
is not the union of the persisted collections. -/
theorem c4_extra_danger_leaks_into_later_request :
    c4State1.1 = pedsParse c4PedFeats ++ loadHazards c4HazFeats ++ [(47, 9, 1)] ∧
    (47, 9, 1) ∈ c4State2.1 ∧
    c4State2.1 ≠ pedsParse c4PedFeats ++ loadHazards c4HazFeats := by
  decide

/-! ### C5: score clamping on every ingestion path -/

/-- C5: on each ingestion path (hazards file load, pedestrians file load,
request `extra_danger`, hazard save) the effective score is the raw input score
clamped to `[0,1]` by one and the same clamp; in particular an input score of
1.7 becomes 1.0 and an input score of −0.3 becomes 0.0 on each path. -/
theorem c5_scores_clamped_on_every_path :
    (∀ s : ℚ, pedClamp s = clamp01 s) ∧
    (∀ s : ℚ, clampSave s = clamp01 s) ∧
    (∀ f : GeoFeature, loadHazards [f] =
      if f.geomType = "Point" ∧ 2 ≤ f.coords.length then
        [(f.coords.getD 1 0, f.coords.getD 0 0, clamp01 (hazRawScore f))] else []) ∧
    (∀ f : GeoFeature, pedsParse [f] =
      if f.geomType = "Point" ∧ 2 ≤ f.coords.length then
        [(f.coords.getD 1 0, f.coords.getD 0 0, clamp01 (pedRawScore f))] else []) ∧
    (∀ p : Pt3, clampDanger p = (p.1, p.2.1, clamp01 p.2.2)) ∧
    (∀ it : Pt3, saveHazards [it] = [⟨it.2.1, it.1, clamp01 it.2.2⟩]) ∧
    clamp01 (17/10) = 1 ∧ clamp01 (-(3/10)) = 0 ∧
    loadHazards [⟨"Point", [8, 47], some (17/10), none⟩] = [(47, 8, 1)] ∧
    loadHazards [⟨"Point", [8, 47], some (-(3/10)), none⟩] = [(47, 8, 0)] ∧
    pedsParse [⟨"Point", [8, 47], some (17/10), none⟩] = [(47, 8, 1)] ∧
    pedsParse [⟨"Point", [8, 47], some (-(3/10)), none⟩] = [(47, 8, 0)] ∧
    clampDanger (47, 8, 17/10) = (47, 8, 1) ∧
    clampDanger (47, 8, -(3/10)) = (47, 8, 0) ∧
    saveHazards [(47, 8, 17/10)] = [⟨8, 47, 1⟩] ∧
    saveHazards [(47, 8, -(3/10))] = [⟨8, 47, 0⟩] := by
  have h17 : clamp01 (17/10) = 1 := by norm_num [clamp01]
  have h03 : clamp01 (-(3/10)) = 0 := by norm_num [clamp01]
  refine ⟨pedClamp_eq_clamp01, clampSave_eq_clamp01, ?_, ?_, ?_, ?_, h17, h03,
    ?_, ?_, ?_, ?_, ?_, ?_, ?_, ?_⟩
  · intro f
    simp only [loadHazards, List.filterMap]
    split <;> simp_all
  · intro f
    simp only [pedsParse, List.filterMap]
    split <;> simp_all [pedClamp_eq_clamp01]
  · intro p
    simp [clampDanger, pedClamp_eq_clamp01]
  · intro it
    simp [saveHazards, clampSave_eq_clamp01]
  · simp [loadHazards, hazRawScore, h17]
  · simp [loadHazards, hazRawScore, h03]
  · simp [pedsParse, pedRawScore, pedClamp_eq_clamp01, h17]
  · simp [pedsParse, pedRawScore, pedClamp_eq_clamp01, h03]
  · simp [clampDanger, pedClamp_eq_clamp01, h17]
  · simp [clampDanger, pedClamp_eq_clamp01, h03]
  · simp [saveHazards, clampSave_eq_clamp01, h17]
  · simp [saveHazards, clampSave_eq_clamp01, h03]

/-! ### C10: POST /hazards replaces the stored collection -/

/-- C10: after a successful `POST /hazards`, the stored collection is exactly
the payload's Point features with clamped scores, independently of the previous
store contents (full replacement, not append). -/
theorem c10_post_hazards_replaces_store :
    ∀ (oldStore : List StoredHaz) (p : HazPayload),
      postHazards oldStore p = claimPointsOf p := by
  intro _oldStore p
  cases p with
  | plist items =>
      simp [postHazards, parseHazPayload, claimPointsOf, saveHazards, clampSave_eq_clamp01]
  | fc feats =>
      simp only [postHazards, parseHazPayload, claimPointsOf, saveHazards,
        List.map_filterMap]
      apply List.filterMap_congr
      intro f _
      split <;> simp [clampSave_eq_clamp01]

/-! ## Street graph model

The graph `route` searches is an OSMnx `MultiDiGraph`. Nodes carry geographic
coordinates (`y` = latitude, `x` = longitude; used by the safety terms) and
projected planar coordinates (`px`, `py`: the node coordinates of the projected
graph `Gp`, used by the heuristic `h`). Every edge carries a length attribute
(`ox.add_edge_lengths`); parallel edges between one node pair are separate list
entries. -/

structure Graph where
  edges : List (ℕ × ℕ × ℚ)
  x : ℕ → ℚ
  y : ℕ → ℚ
  px : ℕ → ℚ
  py : ℕ → ℚ

/-- Lengths of the parallel edges from `u` to `v` (the values of `G[u][v]`). -/
def parLens (G : Graph) (u v : ℕ) : List ℚ :=
  G.edges.filterMap fun e => if e.1 = u ∧ e.2.1 = v then some e.2.2 else none

/-- The networkx multigraph weight under the string weight `"length"`:
`min(attr.get("length", 1) for attr in d.values())`; it is also the length of
the parallel edge the route assembler selects
(`min(G.get_edge_data(u, v).values(), key=lambda d: d.get("length", 0))`).
Junk value 0 when no edge `u → v` exists. -/
def wmin (G : Graph) (u v : ℕ) : ℚ :=
  match parLens G u v with
  | [] => 0
  | l :: ls => ls.foldl min l

/-- Whether the graph has at least one edge `u → v`. -/
def hasEdgeB (G : Graph) (u v : ℕ) : Bool :=
  G.edges.any fun e => e.1 = u && e.2.1 = v

/-- First-occurrence deduplication with an accumulator of already-seen keys. -/
def firstOccsAux : List ℕ → List ℕ → List ℕ
  | [], _ => []
  | a :: l, seen =>
      if seen.contains a then firstOccsAux l seen else a :: firstOccsAux l (a :: seen)

/-- First-occurrence deduplication — the key iteration order of a Python dict
built by repeated insertion. -/
def firstOccs (l : List ℕ) : List ℕ := firstOccsAux l []

/-- `G_succ[u].items()` as the A* loop consumes it: each distinct successor of
`u` (in first-edge order) paired with the weight-function value for the whole
parallel-edge bundle. -/
def succList (G : Graph) (u : ℕ) : List (ℕ × ℚ) :=
  (firstOccs (G.edges.filterMap fun e => if e.1 = u then some e.2.1 else none)).map
    fun v => (v, wmin G u v)

/-- Every consecutive pair of the node list is connected by an edge. -/
def chainB (G : Graph) : List ℕ → Bool
  | u :: v :: rest => hasEdgeB G u v && chainB G (v :: rest)
  | _ => true

/-- `p` is a walk from `s` to `t` along edges of `G`. -/
def IsWalk (G : Graph) (p : List ℕ) (s t : ℕ) : Prop :=
  p.head? = some s ∧ p.getLast? = some t ∧ chainB G p = true

instance (G : Graph) (p : List ℕ) (s t : ℕ) : Decidable (IsWalk G p s t) :=
  inferInstanceAs (Decidable (p.head? = some s ∧ p.getLast? = some t ∧ chainB G p = true))

/-- Total length of a node sequence: the sum over consecutive pairs of the
selected (minimum-length) parallel edge — the `distance_m` the route assembler
reports and the cost the search accumulates. -/
def walkCost (G : Graph) : List ℕ → ℚ
  | u :: v :: rest => wmin G u v + walkCost G (v :: rest)
  | _ => 0

/-! ## A* search (`nx.astar_path`)

The search the route endpoint delegates to. The spec (§4.5) describes it as
standard A*: the open set is a heap ordered by `g + h` with ties broken by a
strictly increasing insertion counter; popping an explored node re-expands it
only when its entry is not stale; the parent chain is modelled by carrying the
realized path in each entry. Fuel makes the recursion total; every claim
quantifies over the fuel. -/

/-- A heap entry `(priority, counter, node, dist, path)`. -/
structure Entry (α : Type) where
  f : α
  ctr : ℕ
  node : ℕ
  g : α
  path : List ℕ
deriving DecidableEq

section AStar

variable {α : Type} [LinearOrderedRing α]

/-- `heapq.heappush`: insert keeping the queue sorted by `(priority, counter)`.
Counters strictly increase, so inserting after every entry with priority ≤ the
new one realizes the heap's tie-breaking exactly. -/
def pushEntry (e : Entry α) : List (Entry α) → List (Entry α)
  | [] => [e]
  | x :: xs => if x.f ≤ e.f then x :: pushEntry e xs else e :: x :: xs

/-- The mutable state of the search loop: the heap, the push counter, the
`enqueued` map (best known `g` per node) and the `explored` set. -/
structure AState (α : Type) where
  queue : List (Entry α)
  ctr : ℕ
  enq : List (ℕ × α)
  explored : List ℕ

/-- Association-list lookup (`enqueued[node]`). -/
def alookup (l : List (ℕ × α)) (k : ℕ) : Option α :=
  (l.find? fun p => p.1 == k).map (·.2)

/-- The stale-entry test of the pop handler: `qcost < dist` for the popped
node's best enqueued cost. -/
def staleB (enq : List (ℕ × α)) (nd : ℕ) (g : α) : Bool :=
  match alookup enq nd with
  | some q => decide (q < g)
  | none => false

/-- One iteration of the successor loop: compute `ncost = dist + weight`; skip
if the neighbor's best enqueued cost is already ≤ `ncost`, else record the new
best cost and push a fresh heap entry. State is `(queue, counter, enqueued)`. -/
def relaxOne (hf : ℕ → α) (g : α) (path : List ℕ)
    (st : List (Entry α) × ℕ × List (ℕ × α)) (vw : ℕ × α) :
    List (Entry α) × ℕ × List (ℕ × α) :=
  let ncost := g + vw.2
  match alookup st.2.2 vw.1 with
  | some q =>
      if q ≤ ncost then st
      else (pushEntry ⟨ncost + hf vw.1, st.2.1, vw.1, ncost, path ++ [vw.1]⟩ st.1,
            st.2.1 + 1, (vw.1, ncost) :: st.2.2)
  | none =>
      (pushEntry ⟨ncost + hf vw.1, st.2.1, vw.1, ncost, path ++ [vw.1]⟩ st.1,
       st.2.1 + 1, (vw.1, ncost) :: st.2.2)

/-- The main loop of `nx.astar_path`: pop the minimum entry; return its path at
the target; skip stale pops of explored nodes (the source is never re-expanded,
its stored parent being `None`); otherwise mark explored and relax all
successors. -/
def astarAux (succ : ℕ → List (ℕ × α)) (hf : ℕ → α) (src tgt : ℕ) :
    ℕ → AState α → Option (List ℕ)
  | 0, _ => none
  | fuel + 1, st =>
    match st.queue with
    | [] => none
    | e :: rest =>
      if e.node = tgt then some e.path
      else if e.node ∈ st.explored ∧ (e.node = src ∨ staleB st.enq e.node e.g = true) then
        astarAux succ hf src tgt fuel ⟨rest, st.ctr, st.enq, st.explored⟩
      else
        let r := (succ e.node).foldl (relaxOne hf e.g e.path) (rest, st.ctr, st.enq)
        astarAux succ hf src tgt fuel ⟨r.1, r.2.1, r.2.2, e.node :: st.explored⟩

/-- The initial state: `queue = [(0, 0, source, 0, None)]`, counter 1, empty
`enqueued` and `explored`. -/
def initState (src : ℕ) : AState α := ⟨[⟨0, 0, src, 0, [src]⟩], 1, [], []⟩

/-- A full `nx.astar_path` run from the initial state. -/
def astarRun (succ : ℕ → List (ℕ × α)) (hf : ℕ → α) (src tgt fuel : ℕ) :
    Option (List ℕ) :=
  astarAux succ hf src tgt fuel (initState src)

end AStar

/-! ### Concrete graphs for the C1 and C2 counterexamples -/

/-- C1 scenario: a direct edge `0 → 2` of length 10 and a two-hop alternative
`0 → 1 → 2` of total length 2; node 1 sits at projected abscissa 100 while
nodes 0 and 2 sit at 0, so the heuristic grossly overestimates through node 1
(its planar distance to the target exceeds the remaining path length). -/
def c1Graph : Graph where
  edges := [(0, 2, 10), (0, 1, 1), (1, 2, 1)]
  x := fun _ => 0
  y := fun _ => 0
  px := fun n => if n = 1 then 100 else 0
  py := fun _ => 0

/-- The successor structure of `c1Graph` with its (integer-valued) edge
weights, given over ℤ so that concrete A* runs reduce in the kernel. -/
def c1succZ : ℕ → List (ℕ × ℤ) := fun u =>
  if u = 0 then [(2, 10), (1, 1)] else if u = 1 then [(2, 1)] else []

/-- The heuristic of the code on `c1Graph` towards target 2 (all nodes share
`py = 0`, so `math.hypot` degenerates to `|px u − px 2|`), as integers. -/
def c1hz : ℕ → ℤ := fun u => if u = 1 then 100 else 0

/-- Evaluation: on `c1Graph`'s successor structure the search pops the direct
edge first (priority 10 beats `1 + 100` through the detour node) and returns
`[0, 2]`. -/
theorem c1_astar_run_eval : astarRun c1succZ c1hz 0 2 20 = some [0, 2] := by
  decide

/-- The successor lists of `c1Graph` agree with `c1succZ` (over ℚ). -/
theorem c1Graph_succ_eval :
    succList c1Graph 0 = [(2, 10), (1, 1)] ∧
    succList c1Graph 1 = [(2, 1)] ∧
    succList c1Graph 2 = [] := by
  decide

/-- The two routes of `c1Graph`: the direct edge has length 10, the detour
`[0, 1, 2]` is a walk of length 2. -/
theorem c1Graph_walks :
    walkCost c1Graph [0, 2] = 10 ∧
    IsWalk c1Graph [0, 1, 2] 0 2 ∧ walkCost c1Graph [0, 1, 2] = 2 := by
  have h02 : wmin c1Graph 0 2 = 10 := by decide
  have h01 : wmin c1Graph 0 1 = 1 := by decide
  have h12 : wmin c1Graph 1 2 = 1 := by decide
  refine ⟨?_, by decide, ?_⟩
  · simp [walkCost, h02]
  · simp [walkCost, h01, h12]
    norm_num

/-- C2 scenario: a single edge of length 0.05 m. -/
def c2Graph : Graph where
  edges := [(0, 1, 1/20)]
  x := fun _ => 0
  y := fun _ => 0
  px := fun _ => 0
  py := fun _ => 0

/-- The only edge of `c2Graph` has minimum parallel length 0.05. -/
theorem c2Graph_wmin : wmin c2Graph 0 1 = 1/20 ∧ succList c2Graph 0 = [(1, 1/20)] := by
  have h : parLens c2Graph 0 1 = [1/20] := by
    norm_num [parLens, c2Graph, List.filterMap]
  have hw : wmin c2Graph 0 1 = 1/20 := by rw [wmin, h]; rfl
  refine ⟨hw, ?_⟩
  have : (c2Graph.edges.filterMap fun e => if e.1 = 0 then some e.2.1 else none) = [1] := by
    norm_num [c2Graph, List.filterMap]
  rw [succList, this]
  simp [firstOccs, firstOccsAux, hw]

/-! ## Real-valued layer: haversine, kernel densities, edge weights

Values produced by `math.sin`, `math.exp`, … are modelled in `ℝ`; the data
(coordinates, scores, lengths) stay in `ℚ` and are cast where used. -/

/-- Python `math.atan2 y x`: the two-argument arctangent. -/
noncomputable def atan2 (y x : ℝ) : ℝ :=
  if 0 < x then Real.arctan (y / x)
  else if x < 0 then
    (if 0 ≤ y then Real.arctan (y / x) + Real.pi else Real.arctan (y / x) - Real.pi)
  else if 0 < y then Real.pi / 2
  else if y < 0 then -(Real.pi / 2)
  else 0

/-- `_haversine(u, v)` (app.py lines 121-130): great-circle distance in meters
between two `(lat, lon)` pairs on a sphere of radius 6371000 m. -/
noncomputable def haversineDist (u v : ℝ × ℝ) : ℝ :=
  let lat1 := u.1 * Real.pi / 180
  let lon1 := u.2 * Real.pi / 180
  let lat2 := v.1 * Real.pi / 180
  let lon2 := v.2 * Real.pi / 180
  let dlat := lat2 - lat1
  let dlon := lon2 - lon1
  let a := Real.sin (dlat / 2) ^ 2 +
    Real.cos lat1 * Real.cos lat2 * Real.sin (dlon / 2) ^ 2
  6371000 * (2 * atan2 (Real.sqrt a) (Real.sqrt (1 - a)))

/-- Number of sampling intervals along an edge:
`n = max(1, int(L / SAMPLE_STEP))` with `SAMPLE_STEP = 15.0` m. -/
noncomputable def nSamples (L : ℝ) : ℕ := max 1 ⌊L / 15⌋.toNat

/-- The `i`-th sample point along the straight chord between the node
coordinates: `t = i / n`, linear interpolation of latitude and longitude
(app.py lines 399-402 and 438-441). -/
noncomputable def samplePt (uy ux vy vx : ℝ) (n i : ℕ) : ℝ × ℝ :=
  (uy + (vy - uy) * (i / n), ux + (vx - ux) * (i / n))

/-- Per-sample lighting density: the sum of Gaussian kernels
`exp(−d² / (2·40²))` over all lighting points, skipping points farther than
`4σ = 160` m (app.py lines 444-450; `inv_twosig2 = 1/3200`). -/
noncomputable def lightSum (lights : List Pt2) (loc : ℝ × ℝ) : ℝ :=
  (lights.map fun l =>
    let d := haversineDist loc ((l.1 : ℝ), (l.2 : ℝ))
    if 160 < d then 0 else Real.exp (-(d * d) * (1 / 3200))).sum

/-- The haversine length `L` of the straight chord between the node
coordinates of `u` and `v` (`_edge_density` line 431, `_edge_ped_stats` line
393). -/
noncomputable def chordLen (G : Graph) (u v : ℕ) : ℝ :=
  haversineDist ((G.y u : ℝ), (G.x u : ℝ)) ((G.y v : ℝ), (G.x v : ℝ))

/-- The `i`-th of the `n + 1` sample points of the edge `u → v`, with
`n = nSamples (chordLen G u v)`. -/
noncomputable def edgeSample (G : Graph) (u v : ℕ) (i : ℕ) : ℝ × ℝ :=
  samplePt (G.y u : ℝ) (G.x u : ℝ) (G.y v : ℝ) (G.x v : ℝ)
    (nSamples (chordLen G u v)) i

/-- `_edge_density(u, v)` (app.py lines 424-452): 0 without lighting points or
for a degenerate chord (`L ≤ 0`), otherwise the average of `lightSum` over the
`n + 1` sample points. -/
noncomputable def edgeDensity (G : Graph) (u v : ℕ) (lights : List Pt2) : ℝ :=
  if lights = [] then 0
  else if chordLen G u v ≤ 0 then 0
  else (∑ i ∈ Finset.range (nSamples (chordLen G u v) + 1),
          lightSum lights (edgeSample G u v i)) / (nSamples (chordLen G u v) + 1)

/-- Per-sample danger mass: the sum over hazard points with positive score
within `PEDS_RADIUS = 100` m of `score² · exp(−d² / (2·30²))`
(app.py lines 404-411; `ped_inv_twosig2 = 1/1800`, `PEDS_GAMMA = 2`). -/
noncomputable def pedSum (pts : List Pt3) (loc : ℝ × ℝ) : ℝ :=
  (pts.map fun p =>
    if (p.2.2 : ℝ) ≤ 0 then 0
    else
      let d := haversineDist loc ((p.1 : ℝ), (p.2.1 : ℝ))
      if 100 < d then 0 else (p.2.2 : ℝ) ^ 2 * Real.exp (-(d * d) * (1 / 1800))).sum

/-- The `acc / (n + 1)` component of `_edge_ped_stats` (app.py lines 386-415):
the per-sample average of `pedSum`, 0 for an empty point set or a degenerate
chord. -/
noncomputable def edgePedAvg (G : Graph) (u v : ℕ) (pts : List Pt3) : ℝ :=
  if pts = [] then 0
  else if chordLen G u v ≤ 0 then 0
  else (∑ i ∈ Finset.range (nSamples (chordLen G u v) + 1),
          pedSum pts (edgeSample G u v i)) / (nSamples (chordLen G u v) + 1)

open scoped Classical in
/-- The `peak` component of `_edge_ped_stats`: 1 exactly when some hazard point
with positive score at least `HIGH_RISK_THRESHOLD = 0.85` lies within
`HIGH_RISK_RADIUS = 100` m of some sample point (and the guards of the loop
are passed), else 0. -/
noncomputable def edgePedPeak (G : Graph) (u v : ℕ) (pts : List Pt3) : ℝ :=
  if pts = [] then 0
  else if chordLen G u v ≤ 0 then 0
  else if ∃ i ∈ Finset.range (nSamples (chordLen G u v) + 1), ∃ p ∈ pts,
      0 < (p.2.2 : ℝ) ∧
      haversineDist (edgeSample G u v i) ((p.1 : ℝ), (p.2.1 : ℝ)) ≤ 100 ∧
      (0.85 : ℝ) ≤ (p.2.2 : ℝ)
    then 1 else 0

/-- `_edge_ped_stats(u, v)` (app.py lines 386-415): the pair
`(ped_danger, ped_peak)`. -/
noncomputable def edgePedStats (G : Graph) (u v : ℕ) (pts : List Pt3) : ℝ × ℝ :=
  (edgePedAvg G u v pts, edgePedPeak G u v pts)

/-- The darkness term of `_edge_weight` (app.py lines 461-465):
`dark_term = (1 / (SAFE_EPS + SAFE_ALPHA * dens)) * pen` with
`pen = DARKNESS_PENALTY = 2` exactly when `dens < MIN_DENSITY = 0.05`. -/
noncomputable def codeDarkTerm (G : Graph) (u v : ℕ) (lights : List Pt2) : ℝ :=
  let dens := edgeDensity G u v lights
  (1 / (1e-6 + 3 * dens)) * (if dens < 0.05 then 2 else 1)

/-- The hazard term of `_edge_weight` (app.py lines 466-468):
`ped_term = PEDS_WEIGHT * ped_danger + HIGH_RISK_JUMP * ped_peak` with
`PEDS_WEIGHT = 6` and `HIGH_RISK_JUMP = 20`. -/
noncomputable def codePedTerm (G : Graph) (u v : ℕ) (pts : List Pt3) : ℝ :=
  6 * (edgePedStats G u v pts).1 + 20 * (edgePedStats G u v pts).2

/-- `_edge_weight(u, v, attrs)` (app.py lines 454-471). On a multigraph,
networkx hands a callable weight the dictionary `G_succ[u][v]` of parallel
edges keyed by integer edge keys, so `attrs.get("length", 1.0)` never finds a
`"length"` key: `base` is always the default 1.0. The `"short"` branch and the
fallback branch return `base`; the `"safe"` branch with lighting points returns
the floored sum of the darkness and hazard terms. -/
noncomputable def edgeWeight (pref : String) (lights : List Pt2) (pts : List Pt3)
    (G : Graph) (u v : ℕ) : ℝ :=
  let base : ℝ := 1
  if pref = "short" then base
  else if pref = "safe" ∧ lights ≠ [] then
    max 0.1 (codeDarkTerm G u v lights + codePedTerm G u v pts)
  else base

/-- The A* heuristic `h(u, v)` of `route` (app.py lines 487-492):
`math.hypot` of the projected-coordinate differences to the target. -/
noncomputable def hproj (G : Graph) (tgt u : ℕ) : ℝ :=
  Real.sqrt (((G.px u : ℝ) - (G.px tgt : ℝ)) ^ 2 + ((G.py u : ℝ) - (G.py tgt : ℝ)) ^ 2)

/-- Python `str.lower()` on ASCII policy strings, as a character-list map. -/
def lowerStr (s : String) : String := ⟨s.data.map Char.toLower⟩

/-- Route-preference normalization (app.py lines 332-334): lowercase, then
`"fast"` aliases to `"short"`. -/
def normPref (s : String) : String :=
  let p := lowerStr s
  if p = "fast" then "short" else p

/-- The successor structure the search sees under the string weight `"length"`
(the `"short"` policy): minimum parallel length, cast to float. -/
noncomputable def succsLen (G : Graph) : ℕ → List (ℕ × ℝ) := fun u =>
  (succList G u).map fun p => (p.1, (p.2 : ℝ))

/-- The successor structure under the callable weight `_edge_weight` (the
`"safe"` policy): each distinct successor paired with the weight of its
parallel-edge bundle. -/
noncomputable def succsWeighted (pref : String) (lights : List Pt2) (pts : List Pt3)
    (G : Graph) : ℕ → List (ℕ × ℝ) := fun u =>
  (firstOccs (G.edges.filterMap fun e => if e.1 = u then some e.2.1 else none)).map
    fun v => (v, edgeWeight pref lights pts G u v)

/-- The search call of `route` (app.py lines 494-499): A* from the snapped
origin to the snapped destination with heuristic `h`; the weight is the string
`"length"` when the normalized preference is `"short"`, else the
`_edge_weight` callable. -/
noncomputable def routeSearch (G : Graph) (lights : List Pt2) (pts : List Pt3)
    (pref : String) (src tgt fuel : ℕ) : Option (List ℕ) :=
  let p := normPref pref
  if p = "short" then astarRun (succsLen G) (hproj G tgt) src tgt fuel
  else astarRun (succsWeighted p lights pts G) (hproj G tgt) src tgt fuel

/-- The route response produced from a successful search: the node sequence
and the reported total distance (`_route_to_geojson`). -/
noncomputable def routeResponse (G : Graph) (lights : List Pt2) (pts : List Pt3)
    (pref : String) (src tgt fuel : ℕ) : Option (List ℕ × ℚ) :=
  (routeSearch G lights pts pref src tgt fuel).map fun p => (p, walkCost G p)

/-! ### C9: the "fast" policy aliases "short" -/

/-- C9: a request with policy `"fast"` produces exactly the same outcome
(route, reported distance, and absence/presence of a result) as the identical
request with policy `"short"`. -/
theorem c9_fast_policy_equals_short :
    ∀ (G : Graph) (lights : List Pt2) (pts : List Pt3) (src tgt fuel : ℕ),
      routeResponse G lights pts "fast" src tgt fuel =
        routeResponse G lights pts "short" src tgt fuel := by
  intro G lights pts src tgt fuel
  have h1 : normPref "fast" = "short" := by decide
  have h2 : normPref "short" = "short" := by decide
  simp only [routeResponse, routeSearch, h1, h2]

/-! ### C3: safest policy with an empty lighting index -/

/-- A one-edge graph whose edge has length 7 m (for C3). -/
def c3Graph : Graph where
  edges := [(0, 1, 7)]
  x := fun _ => 0
  y := fun _ => 0
  px := fun _ => 0
  py := fun _ => 0

/-- C3 (code_bug evaluation): with the `"safe"` policy and an empty lighting
point set, `_edge_weight` returns the constant 1.0 for every edge — not the
edge's length (7 m here) as documented in the code's own fallback comment —
because `attrs.get("length", 1.0)` looks the key up in the parallel-edge
dictionary. The request itself does not fail: the weight is total and the
search simply runs with constant edge cost. -/
theorem c3_safe_fallback_is_constant_one :
    edgeWeight "safe" [] [(0, 0, 1)] c3Graph 0 1 = 1 ∧
    wmin c3Graph 0 1 = 7 ∧
    succsWeighted "safe" [] [(0, 0, 1)] c3Graph 0 = [(1, 1)] ∧
    (1 : ℝ) ≠ 7 := by
  have hw : edgeWeight "safe" [] [(0, 0, 1)] c3Graph 0 1 = 1 := by
    simp [edgeWeight]
  refine ⟨hw, by decide, ?_, by norm_num⟩
  have hlist : (c3Graph.edges.filterMap fun e => if e.1 = 0 then some e.2.1 else none)
      = [1] := by decide
  rw [succsWeighted, hlist]
  simp only [firstOccs, firstOccsAux, List.contains_nil, List.map]
  simp [edgeWeight]

/-! ### C8: removing lighting points never decreases the darkness term -/

/-- Each lighting kernel term is nonnegative. -/
theorem lightKernel_nonneg (loc : ℝ × ℝ) (l : Pt2) :
    0 ≤ (let d := haversineDist loc ((l.1 : ℝ), (l.2 : ℝ))
         if 160 < d then (0:ℝ) else Real.exp (-(d * d) * (1 / 3200))) := by
  dsimp only
  split
  · exact le_refl 0
  · exact (Real.exp_pos _).le

/-- A per-sample lighting density is nonnegative. -/
theorem lightSum_nonneg (lights : List Pt2) (loc : ℝ × ℝ) : 0 ≤ lightSum lights loc := by
  apply List.sum_nonneg
  intro x hx
  simp only [List.mem_map] at hx
  obtain ⟨l, _, rfl⟩ := hx
  exact lightKernel_nonneg loc l

/-- A per-sample lighting density only grows with the lighting point list. -/
theorem lightSum_mono {l' l : List Pt2} (h : l'.Sublist l) (loc : ℝ × ℝ) :
    lightSum l' loc ≤ lightSum l loc := by
  unfold lightSum
  induction h with
  | slnil => simp
  | cons a h ih =>
      simp only [List.map_cons, List.sum_cons]
      have := lightKernel_nonneg loc a
      dsimp only at this
      linarith
  | cons₂ a h ih =>
      simp only [List.map_cons, List.sum_cons]
      linarith

/-- The code's edge density is nonnegative. -/
theorem edgeDensity_nonneg (G : Graph) (u v : ℕ) (lights : List Pt2) :
    0 ≤ edgeDensity G u v lights := by
  unfold edgeDensity
  split
  · exact le_refl 0
  · split
    · exact le_refl 0
    · apply div_nonneg
      · exact Finset.sum_nonneg fun i _ => lightSum_nonneg lights _
      · positivity

/-- The code's edge density only grows with the lighting point list. -/
theorem edgeDensity_mono (G : Graph) (u v : ℕ) {l' l : List Pt2} (h : l'.Sublist l) :
    edgeDensity G u v l' ≤ edgeDensity G u v l := by
  by_cases hl : l = []
  · subst hl
    rw [List.sublist_nil.mp h]
  · by_cases hl' : l' = []
    · subst hl'
      rw [show edgeDensity G u v [] = 0 from by simp [edgeDensity]]
      exact edgeDensity_nonneg G u v l
    · unfold edgeDensity
      rw [if_neg hl', if_neg hl]
      by_cases hL : chordLen G u v ≤ 0
      · rw [if_pos hL, if_pos hL]
      · rw [if_neg hL, if_neg hL]
        apply div_le_div_of_nonneg_right ?_ (by positivity)
        exact Finset.sum_le_sum fun i _ => lightSum_mono h _

/-- C8: for every edge and every lighting point set, removing lighting points
(passing to any sublist) never decreases the edge's darkness term. -/
theorem c8_darkness_term_antitone :
    ∀ (G : Graph) (u v : ℕ) (lights lights' : List Pt2),
      lights'.Sublist lights →
      codeDarkTerm G u v lights ≤ codeDarkTerm G u v lights' := by
  intro G u v lights lights' h
  simp only [codeDarkTerm]
  have hd' : 0 ≤ edgeDensity G u v lights' := edgeDensity_nonneg G u v lights'
  have hdd : edgeDensity G u v lights' ≤ edgeDensity G u v lights :=
    edgeDensity_mono G u v h
  set d' := edgeDensity G u v lights'
  set d := edgeDensity G u v lights
  have hrecip : 1 / (1e-6 + 3 * d) ≤ 1 / (1e-6 + 3 * d') := by
    apply one_div_le_one_div_of_le (by positivity)
    linarith
  have hpen : (if d < 0.05 then (2:ℝ) else 1) ≤ (if d' < 0.05 then (2:ℝ) else 1) := by
    by_cases hc : d < 0.05
    · rw [if_pos hc, if_pos (lt_of_le_of_lt hdd hc)]
    · rw [if_neg hc]
      split <;> norm_num
  apply mul_le_mul hrecip hpen
  · split <;> norm_num
  · positivity

/-- Witness for C8: dropping the single lighting point of a one-point set. -/
theorem c8_witness :
    ([] : List Pt2).Sublist [((0:ℚ), 0)] ∧
      codeDarkTerm c3Graph 0 1 [((0:ℚ), 0)] ≤ codeDarkTerm c3Graph 0 1 [] :=
  ⟨List.nil_sublist _, c8_darkness_term_antitone c3Graph 0 1 _ _ (List.nil_sublist _)⟩

/-! ### C6: the darkness-term formula -/

/-- The haversine distance from a point to itself is 0. -/
theorem haversineDist_self (p : ℝ × ℝ) : haversineDist p p = 0 := by
  unfold haversineDist atan2
  norm_num

/-- Written from the claim's words (C6): the per-sample lighting density —
"the sum over all lighting points of a Gaussian kernel `exp(−d²/(2σ²))` with
σ = 40 m, points farther than 4σ from the sample being skipped". -/
noncomputable def specLightDensityAt (lights : List Pt2) (loc : ℝ × ℝ) : ℝ :=
  (lights.map fun l =>
    let d := haversineDist loc ((l.1 : ℝ), (l.2 : ℝ))
    if 4 * 40 < d then 0 else Real.exp (-(d ^ 2) / (2 * 40 ^ 2))).sum

/-- Written from the claim's words (C6): the density of an edge — "the average
over sample points taken along the edge geometry every 15 m (at least one
sample)". The sample grid is the code's (`max 1 ⌊L/15⌋` intervals, samples at
the interval ends); "at least one sample" holds for every edge, a degenerate
one included. -/
noncomputable def specDensity (G : Graph) (u v : ℕ) (lights : List Pt2) : ℝ :=
  (∑ i ∈ Finset.range (nSamples (chordLen G u v) + 1),
      specLightDensityAt lights (edgeSample G u v i)) / (nSamples (chordLen G u v) + 1)

/-- Written from the claim's words (C6): `penaltyFactor = 2` exactly when the
density falls below the minimum-density threshold, else 1. -/
noncomputable def specPenaltyFactor (dens : ℝ) : ℝ := if dens < 0.05 then 2 else 1

/-- Written from the claim's words (C6): darkness term =
`(1 / (ε + α·density)) × penaltyFactor`. -/
noncomputable def specDarkTerm (G : Graph) (u v : ℕ) (lights : List Pt2) : ℝ :=
  (1 / (1e-6 + 3 * specDensity G u v lights)) *
    specPenaltyFactor (specDensity G u v lights)

/-- The claim's per-sample density coincides with the code's. -/
theorem specLightDensityAt_eq (lights : List Pt2) (loc : ℝ × ℝ) :
    specLightDensityAt lights loc = lightSum lights loc := by
  unfold specLightDensityAt lightSum
  congr 1
  apply List.map_congr_left
  intro l _
  dsimp only
  rw [show (4 * 40 : ℝ) = 160 by norm_num]
  split
  · rfl
  · congr 1
    ring

/-- For a non-degenerate edge, the code's density is the claim's density. -/
theorem edgeDensity_eq_specDensity (G : Graph) (u v : ℕ) (lights : List Pt2)
    (hL : 0 < chordLen G u v) :
    edgeDensity G u v lights = specDensity G u v lights := by
  unfold edgeDensity specDensity
  by_cases hl : lights = []
  · subst hl
    rw [if_pos rfl]
    simp [specLightDensityAt]
  · rw [if_neg hl, if_neg (not_le.mpr hL)]
    simp only [specLightDensityAt_eq]

/-- C6 (amended): for every edge of positive chord length and every lighting
point set, the code's darkness term equals the claim's formula
`(1 / (ε + α·density)) × penaltyFactor`, where the density is the claim's
sampled Gaussian-kernel average and the penalty factor is 2 exactly when the
density is below the threshold; the sample count is always at least one. -/
theorem c6_amended_darkness_formula :
    ∀ (G : Graph) (u v : ℕ) (lights : List Pt2),
      0 < chordLen G u v →
      codeDarkTerm G u v lights = specDarkTerm G u v lights ∧
      (specPenaltyFactor (specDensity G u v lights) = 2 ↔
        specDensity G u v lights < 0.05) ∧
      1 ≤ nSamples (chordLen G u v) := by
  intro G u v lights hL
  refine ⟨?_, ?_, le_max_left _ _⟩
  · unfold codeDarkTerm specDarkTerm specPenaltyFactor
    rw [edgeDensity_eq_specDensity G u v lights hL]
  · unfold specPenaltyFactor
    constructor
    · intro h2
      by_contra hc
      rw [if_neg hc] at h2
      norm_num at h2
    · intro hlt
      rw [if_pos hlt]

/-- A self-loop edge (an OSM closed way), used for the C6/C7 counterexamples:
its chord is degenerate. -/
def c6Graph : Graph where
  edges := [(0, 0, 50)]
  x := fun _ => 0
  y := fun _ => 0
  px := fun _ => 0
  py := fun _ => 0

/-- The self-loop's chord has length 0. -/
theorem c6Graph_chord : chordLen c6Graph 0 0 = 0 := by
  unfold chordLen
  norm_num [c6Graph]
  exact haversineDist_self _

/-- All sample points of the self-loop sit at the node itself. -/
theorem c6Graph_sample (i : ℕ) : edgeSample c6Graph 0 0 i = (0, 0) := by
  unfold edgeSample samplePt
  norm_num [c6Graph]

/-- `nSamples 0 = 1`: even a degenerate edge gets one sampling interval. -/
theorem nSamples_zero : nSamples 0 = 1 := by
  norm_num [nSamples]

/-- C6 (counterexample): for a self-loop carrying one lighting point at its
node, the code's darkness term is the unlit maximum `2·10⁶` (the `L ≤ 0` guard
of `_edge_density` returns density 0, ignoring the lighting), while the
claim's formula — with its at-least-one sample — sees density 1 and yields
`1/3.000001`. -/
theorem c6_counterexample :
    codeDarkTerm c6Graph 0 0 [(0, 0)] = 2000000 ∧
    specDarkTerm c6Graph 0 0 [(0, 0)] = 1 / (1e-6 + 3) ∧
    codeDarkTerm c6Graph 0 0 [(0, 0)] ≠ specDarkTerm c6Graph 0 0 [(0, 0)] := by
  have hdens : edgeDensity c6Graph 0 0 [(0, 0)] = 0 := by
    unfold edgeDensity
    rw [if_neg (by simp), if_pos (le_of_eq c6Graph_chord)]
  have hAt : specLightDensityAt [((0:ℚ), (0:ℚ))] (0, 0) = 1 := by
    unfold specLightDensityAt
    simp only [List.map_cons, List.map_nil, List.sum_cons, List.sum_nil]
    rw [show (((0:ℚ):ℝ), ((0:ℚ):ℝ)) = ((0:ℝ), (0:ℝ)) by norm_num]
    rw [haversineDist_self]
    norm_num
  have hspec : specDensity c6Graph 0 0 [(0, 0)] = 1 := by
    unfold specDensity
    rw [c6Graph_chord, nSamples_zero]
    have : ∀ i ∈ Finset.range 2,
        specLightDensityAt [((0:ℚ), (0:ℚ))] (edgeSample c6Graph 0 0 i) = 1 := by
      intro i _
      rw [c6Graph_sample i, hAt]
    rw [Finset.sum_congr rfl this]
    norm_num
  refine ⟨?_, ?_, ?_⟩
  · unfold codeDarkTerm
    rw [hdens]
    norm_num
  · unfold specDarkTerm specPenaltyFactor
    rw [hspec]
    norm_num
  · unfold codeDarkTerm specDarkTerm specPenaltyFactor
    rw [hdens, hspec]
    norm_num

/-- `atan2` of two positives is positive. -/
theorem atan2_pos {y x : ℝ} (hy : 0 < y) (hx : 0 < x) : 0 < atan2 y x := by
  unfold atan2
  rw [if_pos hx]
  have h := Real.arctan_strictMono (show (0:ℝ) < y / x by positivity)
  rwa [Real.arctan_zero] at h

/-- The haversine distance is positive whenever the inner `a` lies in `(0, 1)`. -/
theorem haversineDist_pos_of (u v : ℝ × ℝ)
    (h0 : 0 < Real.sin ((v.1 * Real.pi / 180 - u.1 * Real.pi / 180) / 2) ^ 2 +
      Real.cos (u.1 * Real.pi / 180) * Real.cos (v.1 * Real.pi / 180) *
        Real.sin ((v.2 * Real.pi / 180 - u.2 * Real.pi / 180) / 2) ^ 2)
    (h1 : Real.sin ((v.1 * Real.pi / 180 - u.1 * Real.pi / 180) / 2) ^ 2 +
      Real.cos (u.1 * Real.pi / 180) * Real.cos (v.1 * Real.pi / 180) *
        Real.sin ((v.2 * Real.pi / 180 - u.2 * Real.pi / 180) / 2) ^ 2 < 1) :
    0 < haversineDist u v := by
  unfold haversineDist
  have hy := Real.sqrt_pos.mpr h0
  have hx := Real.sqrt_pos.mpr (by linarith :
    (0:ℝ) < 1 - (Real.sin ((v.1 * Real.pi / 180 - u.1 * Real.pi / 180) / 2) ^ 2 +
      Real.cos (u.1 * Real.pi / 180) * Real.cos (v.1 * Real.pi / 180) *
        Real.sin ((v.2 * Real.pi / 180 - u.2 * Real.pi / 180) / 2) ^ 2))
  have hat := atan2_pos hy hx
  positivity

/-- A south-north edge of roughly 1.1 km: node 0 at `(0, 0)`, node 1 at
`(0.01, 0)` (degrees), used as the positive-chord scenario of C6 and C7. -/
def cPosGraph : Graph where
  edges := [(0, 1, 1100)]
  x := fun _ => 0
  y := fun n => if n = 1 then 1/100 else 0
  px := fun _ => 0
  py := fun _ => 0

/-- The chord of `cPosGraph`'s edge is strictly positive. -/
theorem cPosGraph_chord_pos : 0 < chordLen cPosGraph 0 1 := by
  have hc : chordLen cPosGraph 0 1 = haversineDist (0, 0) (1/100, 0) := by
    unfold chordLen
    norm_num [cPosGraph]
  rw [hc]
  have harg : ((1:ℝ)/100 * Real.pi / 180 - 0 * Real.pi / 180) / 2 = Real.pi / 36000 := by
    ring
  have harg2 : ((0:ℝ) * Real.pi / 180 - 0 * Real.pi / 180) / 2 = 0 := by ring
  have hsin : 0 < Real.sin (Real.pi / 36000) :=
    Real.sin_pos_of_pos_of_lt_pi (by positivity)
      (div_lt_self Real.pi_pos (by norm_num))
  have hlt : Real.sin (Real.pi / 36000) < 1 := by
    have hx1 : Real.pi / 36000 < 1 := by
      have := Real.pi_lt_315
      linarith
    exact lt_trans (Real.sin_lt (by positivity)) hx1
  apply haversineDist_pos_of (0, 0) (1/100, 0) <;>
    simp only [harg, harg2, Real.sin_zero] <;> nlinarith [hsin, hlt]

/-- Witness for C6: the amended darkness-term formula applied to the
positive-chord edge with one lighting point. -/
theorem c6_amended_witness :
    0 < chordLen cPosGraph 0 1 ∧
    (codeDarkTerm cPosGraph 0 1 [(0, 0)] = specDarkTerm cPosGraph 0 1 [(0, 0)] ∧
     (specPenaltyFactor (specDensity cPosGraph 0 1 [(0, 0)]) = 2 ↔
       specDensity cPosGraph 0 1 [(0, 0)] < 0.05) ∧
     1 ≤ nSamples (chordLen cPosGraph 0 1)) :=
  ⟨cPosGraph_chord_pos,
   c6_amended_darkness_formula cPosGraph 0 1 [(0, 0)] cPosGraph_chord_pos⟩

/-! ### C7: the hazard-term formula -/

/-- Written from the claim's words (C7): the per-sample hazard mass — "the sum,
over hazard points within 100 m of the sample, of score² · exp(−d²/(2·30²))". -/
noncomputable def specHazardAt (pts : List Pt3) (loc : ℝ × ℝ) : ℝ :=
  (pts.map fun p =>
    let d := haversineDist loc ((p.1 : ℝ), (p.2.1 : ℝ))
    if d ≤ 100 then (p.2.2 : ℝ) ^ 2 * Real.exp (-(d ^ 2) / (2 * 30 ^ 2)) else 0).sum

/-- Written from the claim's words (C7): "the per-sample average" of the hazard
mass, over the same sample points as the darkness term. -/
noncomputable def specHazardAvg (G : Graph) (u v : ℕ) (pts : List Pt3) : ℝ :=
  (∑ i ∈ Finset.range (nSamples (chordLen G u v) + 1),
      specHazardAt pts (edgeSample G u v i)) / (nSamples (chordLen G u v) + 1)

open scoped Classical in
/-- Written from the claim's words (C7): "a large fixed additive penalty
exactly when some hazard point with score above the high-risk threshold 0.85
lies within the 100 m radius of some sample point on the edge" — with the
strict reading of "above". -/
noncomputable def specHighRiskStrict (G : Graph) (u v : ℕ) (pts : List Pt3) : ℝ :=
  if ∃ i ∈ Finset.range (nSamples (chordLen G u v) + 1), ∃ p ∈ pts,
      (0.85 : ℝ) < (p.2.2 : ℝ) ∧
      haversineDist (edgeSample G u v i) ((p.1 : ℝ), (p.2.1 : ℝ)) ≤ 100
  then 20 else 0

open scoped Classical in
/-- The amended high-risk trigger: score at least 0.85 (the code's `>=`). -/
noncomputable def specHighRiskGE (G : Graph) (u v : ℕ) (pts : List Pt3) : ℝ :=
  if ∃ i ∈ Finset.range (nSamples (chordLen G u v) + 1), ∃ p ∈ pts,
      (0.85 : ℝ) ≤ (p.2.2 : ℝ) ∧
      haversineDist (edgeSample G u v i) ((p.1 : ℝ), (p.2.1 : ℝ)) ≤ 100
  then 20 else 0

/-- The claim's hazard formula as stated (strict threshold). -/
noncomputable def specPedTermStrict (G : Graph) (u v : ℕ) (pts : List Pt3) : ℝ :=
  6 * specHazardAvg G u v pts + specHighRiskStrict G u v pts

/-- The amended hazard formula (inclusive threshold). -/
noncomputable def specPedTermGE (G : Graph) (u v : ℕ) (pts : List Pt3) : ℝ :=
  6 * specHazardAvg G u v pts + specHighRiskGE G u v pts

/-- For hazard points with nonnegative scores (the data model clamps them),
the code's per-sample danger mass is the claim's. -/
theorem pedSum_eq_specHazardAt (pts : List Pt3) (loc : ℝ × ℝ)
    (hs : ∀ p ∈ pts, 0 ≤ p.2.2) :
    pedSum pts loc = specHazardAt pts loc := by
  unfold pedSum specHazardAt
  congr 1
  apply List.map_congr_left
  intro p hp
  dsimp only
  rcases eq_or_lt_of_le (hs p hp) with h0 | h0
  · have hz : ((p.2.2 : ℚ) : ℝ) = 0 := by exact_mod_cast h0.symm
    rw [if_pos (le_of_eq hz), hz]
    split <;> norm_num
  · rw [if_neg (not_le.mpr (by exact_mod_cast h0))]
    by_cases hd : (100:ℝ) < haversineDist loc ((p.1 : ℝ), (p.2.1 : ℝ))
    · rw [if_pos hd, if_neg (not_le.mpr hd)]
    · rw [if_neg hd, if_pos (not_lt.mp hd)]
      exact congrArg (fun t => ((p.2.2 : ℚ) : ℝ) ^ 2 * Real.exp t) (by ring)

/-- The empty point list gives zero hazard mass. -/
theorem specHazardAt_nil (loc : ℝ × ℝ) : specHazardAt [] loc = 0 := by
  simp [specHazardAt]

/-- C7 (amended): for every edge of positive chord length and every hazard
point set with scores in the clamped range, the code's hazard term equals the
claim's formula with the inclusive threshold: the weighted per-sample average
plus the fixed 20-point penalty exactly when some point with score ≥ 0.85 lies
within 100 m of some sample. -/
theorem c7_amended_hazard_formula :
    ∀ (G : Graph) (u v : ℕ) (pts : List Pt3),
      (∀ p ∈ pts, 0 ≤ p.2.2) → 0 < chordLen G u v →
      codePedTerm G u v pts = specPedTermGE G u v pts := by
  intro G u v pts hs hL
  unfold codePedTerm specPedTermGE edgePedStats
  by_cases hp : pts = []
  · subst hp
    unfold edgePedAvg edgePedPeak specHazardAvg specHighRiskGE
    rw [if_pos rfl, if_pos rfl]
    have hz : ∀ i ∈ Finset.range (nSamples (chordLen G u v) + 1),
        specHazardAt ([] : List Pt3) (edgeSample G u v i) = 0 :=
      fun i _ => specHazardAt_nil _
    rw [Finset.sum_congr rfl hz]
    simp
  · unfold edgePedAvg edgePedPeak specHazardAvg specHighRiskGE
    rw [if_neg hp, if_neg hp, if_neg (not_le.mpr hL), if_neg (not_le.mpr hL)]
    have havg : ∀ i ∈ Finset.range (nSamples (chordLen G u v) + 1),
        pedSum pts (edgeSample G u v i) = specHazardAt pts (edgeSample G u v i) :=
      fun i _ => pedSum_eq_specHazardAt pts _ hs
    rw [Finset.sum_congr rfl havg]
    have hiff : (∃ i ∈ Finset.range (nSamples (chordLen G u v) + 1), ∃ p ∈ pts,
        0 < (p.2.2 : ℝ) ∧
        haversineDist (edgeSample G u v i) ((p.1 : ℝ), (p.2.1 : ℝ)) ≤ 100 ∧
        (0.85 : ℝ) ≤ (p.2.2 : ℝ)) ↔
        (∃ i ∈ Finset.range (nSamples (chordLen G u v) + 1), ∃ p ∈ pts,
        (0.85 : ℝ) ≤ (p.2.2 : ℝ) ∧
        haversineDist (edgeSample G u v i) ((p.1 : ℝ), (p.2.1 : ℝ)) ≤ 100) := by
      constructor
      · rintro ⟨i, hi, p, hp', _, hd, hsc⟩
        exact ⟨i, hi, p, hp', hsc, hd⟩
      · rintro ⟨i, hi, p, hp', hsc, hd⟩
        exact ⟨i, hi, p, hp', lt_of_lt_of_le (by norm_num) hsc, hd, hsc⟩
    by_cases hcc : ∃ i ∈ Finset.range (nSamples (chordLen G u v) + 1), ∃ p ∈ pts,
        (0.85 : ℝ) ≤ (p.2.2 : ℝ) ∧
        haversineDist (edgeSample G u v i) ((p.1 : ℝ), (p.2.1 : ℝ)) ≤ 100
    · rw [if_pos (hiff.mpr hcc), if_pos hcc]
      ring
    · rw [if_neg (fun hc => hcc (hiff.mp hc)), if_neg hcc]
      ring

/-- On a non-degenerate edge with clamped scores, the code's per-sample
average equals the claim's. -/
theorem edgePedAvg_eq_spec (G : Graph) (u v : ℕ) (pts : List Pt3)
    (hs : ∀ p ∈ pts, 0 ≤ p.2.2) (hp : pts ≠ []) (hL : 0 < chordLen G u v) :
    edgePedAvg G u v pts = specHazardAvg G u v pts := by
  unfold edgePedAvg specHazardAvg
  rw [if_neg hp, if_neg (not_le.mpr hL)]
  exact congrArg (· / _)
    (Finset.sum_congr rfl fun i _ => pedSum_eq_specHazardAt pts _ hs)

/-- C7 (counterexample): the claim fails in two places. On the positive-chord
edge with a hazard point of score exactly 0.85 at a sample point, the code
adds the 20-point penalty (its trigger is `score >= 0.85`) while the claim's
formula — "score above 0.85" — does not. And on a degenerate (self-loop) edge
with a severe hazard at the node, the code's hazard term is 0 (the `L ≤ 0`
guard) while the claim's per-sample average over at least one sample is 26. -/
theorem c7_counterexample :
    codePedTerm cPosGraph 0 1 [(0, 0, 17/20)] ≠
      specPedTermStrict cPosGraph 0 1 [(0, 0, 17/20)] ∧
    codePedTerm c6Graph 0 0 [(0, 0, 1)] = 0 ∧
    specPedTermStrict c6Graph 0 0 [(0, 0, 1)] = 26 := by
  have hcast0 : (((0:ℚ):ℝ), ((0:ℚ):ℝ)) = ((0:ℝ), (0:ℝ)) := by norm_num
  refine ⟨?_, ?_, ?_⟩
  · have hs : ∀ p ∈ [((0:ℚ), (0:ℚ), (17/20:ℚ))], 0 ≤ p.2.2 := by
      intro p hp
      rw [List.mem_singleton] at hp
      subst hp
      norm_num
    have havg : edgePedAvg cPosGraph 0 1 [(0, 0, 17/20)] =
        specHazardAvg cPosGraph 0 1 [(0, 0, 17/20)] :=
      edgePedAvg_eq_spec _ _ _ _ hs (by simp) cPosGraph_chord_pos
    have hsample0 : edgeSample cPosGraph 0 1 0 = (0, 0) := by
      unfold edgeSample samplePt
      norm_num [cPosGraph]
    have hd0 : haversineDist (edgeSample cPosGraph 0 1 0) (((0:ℚ):ℝ), ((0:ℚ):ℝ)) = 0 := by
      rw [hsample0, hcast0]
      exact haversineDist_self _
    have hpeak : edgePedPeak cPosGraph 0 1 [(0, 0, 17/20)] = 1 := by
      unfold edgePedPeak
      rw [if_neg (by simp), if_neg (not_le.mpr cPosGraph_chord_pos), if_pos ?hc]
      case hc =>
        exact ⟨0, Finset.mem_range.mpr (Nat.succ_pos _), (0, 0, 17/20),
          List.mem_singleton_self _, by push_cast; norm_num,
          by rw [hd0]; norm_num, by push_cast; norm_num⟩
    have hjump : specHighRiskStrict cPosGraph 0 1 [(0, 0, 17/20)] = 0 := by
      unfold specHighRiskStrict
      rw [if_neg ?hc2]
      case hc2 =>
        rintro ⟨i, _, p, hp, habove, _⟩
        rw [List.mem_singleton] at hp
        subst hp
        have hxx : ((17/20 : ℚ) : ℝ) = 0.85 := by push_cast; norm_num
        rw [hxx] at habove
        exact lt_irrefl _ habove
    unfold codePedTerm specPedTermStrict edgePedStats
    rw [havg, hpeak, hjump]
    intro hcontra
    have := congrArg (fun t => t - 6 * specHazardAvg cPosGraph 0 1 [(0, 0, 17/20)]) hcontra
    simp only at this
    linarith
  · unfold codePedTerm edgePedStats edgePedAvg edgePedPeak
    rw [if_neg (by simp : ¬ ([((0:ℚ), (0:ℚ), (1:ℚ))] : List Pt3) = []),
      if_pos (le_of_eq c6Graph_chord),
      if_neg (by simp : ¬ ([((0:ℚ), (0:ℚ), (1:ℚ))] : List Pt3) = []),
      if_pos (le_of_eq c6Graph_chord)]
    ring
  · unfold specPedTermStrict specHazardAvg specHighRiskStrict
    rw [c6Graph_chord, nSamples_zero]
    have hAt : ∀ i ∈ Finset.range (1 + 1),
        specHazardAt [((0:ℚ), (0:ℚ), (1:ℚ))] (edgeSample c6Graph 0 0 i) = 1 := by
      intro i _
      rw [c6Graph_sample]
      unfold specHazardAt
      simp only [List.map_cons, List.map_nil, List.sum_cons, List.sum_nil]
      rw [hcast0, haversineDist_self]
      norm_num
    rw [Finset.sum_congr rfl hAt, if_pos ?hcc]
    case hcc =>
      refine ⟨0, by norm_num, (0, 0, 1), List.mem_singleton_self _, by norm_num, ?_⟩
      rw [c6Graph_sample, hcast0, haversineDist_self]
      norm_num
    norm_num

/-- Witness for C7: the amended hazard formula applied to the positive-chord
edge with one mild hazard point. -/
theorem c7_amended_witness :
    (∀ p ∈ [((0:ℚ), (0:ℚ), (1/2:ℚ))], 0 ≤ p.2.2) ∧ 0 < chordLen cPosGraph 0 1 ∧
    codePedTerm cPosGraph 0 1 [(0, 0, 1/2)] = specPedTermGE cPosGraph 0 1 [(0, 0, 1/2)] :=
  ⟨by intro p hp; rw [List.mem_singleton] at hp; subst hp; norm_num,
   cPosGraph_chord_pos,
   c7_amended_hazard_formula cPosGraph 0 1 [(0, 0, 1/2)]
     (by intro p hp; rw [List.mem_singleton] at hp; subst hp; norm_num)
     cPosGraph_chord_pos⟩

/-! ### C2: the cost floor -/

/-- C2 (counterexample): under the `"short"` policy the search weighs edges by
their bare length (`weight="length"`), so the cost of `c2Graph`'s only edge as
the search sees it is 0.05 — below the claimed floor 0.1. -/
theorem c2_counterexample :
    wmin c2Graph 0 1 = 1/20 ∧
    succsLen c2Graph 0 = [(1, ((1/20 : ℚ) : ℝ))] ∧
    ¬ ((0.1 : ℝ) ≤ ((1/20 : ℚ) : ℝ)) := by
  refine ⟨c2Graph_wmin.1, ?_, by push_cast; norm_num⟩
  rw [succsLen, c2Graph_wmin.2]
  simp

/-- C2 (amended): under the `"safe"` policy the edge cost used by the search is
at least 0.1 for every graph, edge and point sets — the floored safety formula
when lighting points exist, the constant fallback 1.0 otherwise. Under
`"short"` the cost is the bare minimum parallel length, with no floor. -/
theorem c2_amended_safe_cost_floor :
    ∀ (G : Graph) (lights : List Pt2) (pts : List Pt3) (u v : ℕ),
      (0.1 : ℝ) ≤ edgeWeight "safe" lights pts G u v := by
  intro G lights pts u v
  simp only [edgeWeight]
  rw [if_neg (by decide : ¬ ("safe" : String) = "short")]
  by_cases hl : lights = []
  · rw [if_neg (fun hc => hc.2 hl)]
    norm_num
  · rw [if_pos ⟨trivial, hl⟩]
    exact le_max_left _ _

/-! ## Transport of A* runs along an order-embedding of costs

The search only adds costs and compares them, so a run over `ℝ` whose inputs
are casts of integer (or rational) data coincides with the run over the
original data. This lets concrete runs be evaluated by the kernel. -/

section Transport

variable {α β : Type} [LinearOrderedRing α] [LinearOrderedRing β]
variable (φ : α → β)

/-- Image of a heap entry under a cost embedding. -/
def castEntry (e : Entry α) : Entry β := ⟨φ e.f, e.ctr, e.node, φ e.g, e.path⟩

@[simp] theorem castEntry_f (e : Entry α) : (castEntry φ e).f = φ e.f := rfl

@[simp] theorem castEntry_node (e : Entry α) : (castEntry φ e).node = e.node := rfl

@[simp] theorem castEntry_g (e : Entry α) : (castEntry φ e).g = φ e.g := rfl

@[simp] theorem castEntry_path (e : Entry α) : (castEntry φ e).path = e.path := rfl

/-- Image of a search state under a cost embedding. -/
def castState (st : AState α) : AState β :=
  ⟨st.queue.map (castEntry φ), st.ctr, st.enq.map fun p => (p.1, φ p.2), st.explored⟩

theorem pushEntry_cast (hle : ∀ a b : α, φ a ≤ φ b ↔ a ≤ b) (e : Entry α) :
    ∀ q : List (Entry α),
      pushEntry (castEntry φ e) (q.map (castEntry φ)) = (pushEntry e q).map (castEntry φ)
  | [] => rfl
  | x :: xs => by
      simp only [List.map_cons, pushEntry, castEntry_f]
      by_cases h : x.f ≤ e.f
      · rw [if_pos ((hle _ _).mpr h), if_pos h, List.map_cons, pushEntry_cast hle e xs]
      · rw [if_neg (fun hc => h ((hle _ _).mp hc)), if_neg h, List.map_cons, List.map_cons]

theorem alookup_cast (k : ℕ) :
    ∀ l : List (ℕ × α), alookup (l.map fun p => (p.1, φ p.2)) k = (alookup l k).map φ
  | [] => rfl
  | x :: xs => by
      simp only [alookup, List.map_cons, List.find?]
      cases hx : (x.1 == k) with
      | true => rfl
      | false => exact alookup_cast k xs

theorem staleB_cast (hle : ∀ a b : α, φ a ≤ φ b ↔ a ≤ b)
    (l : List (ℕ × α)) (nd : ℕ) (g : α) :
    staleB (l.map fun p => (p.1, φ p.2)) nd (φ g) = staleB l nd g := by
  unfold staleB
  rw [alookup_cast]
  cases alookup l nd with
  | none => rfl
  | some q =>
      simp only [Option.map_some']
      exact decide_eq_decide.mpr (lt_iff_lt_of_le_iff_le' (hle _ _) (hle _ _))

theorem relaxOne_cast (hadd : ∀ a b : α, φ (a + b) = φ a + φ b)
    (hle : ∀ a b : α, φ a ≤ φ b ↔ a ≤ b)
    (hf : ℕ → α) (g : α) (path : List ℕ)
    (q : List (Entry α)) (c : ℕ) (enq : List (ℕ × α)) (vw : ℕ × α) :
    relaxOne (fun n => φ (hf n)) (φ g) path
        (q.map (castEntry φ), c, enq.map fun p => (p.1, φ p.2)) (vw.1, φ vw.2) =
      ((relaxOne hf g path (q, c, enq) vw).1.map (castEntry φ),
       (relaxOne hf g path (q, c, enq) vw).2.1,
       (relaxOne hf g path (q, c, enq) vw).2.2.map fun p => (p.1, φ p.2)) := by
  unfold relaxOne
  simp only [alookup_cast]
  have hsum : φ g + φ vw.2 = φ (g + vw.2) := (hadd _ _).symm
  rw [hsum, ← hadd (g + vw.2) (hf vw.1)]
  cases halo : alookup enq vw.1 with
  | none =>
      simp only [Option.map_none']
      exact Prod.ext
        (pushEntry_cast φ hle
          ⟨g + vw.2 + hf vw.1, c, vw.1, g + vw.2, path ++ [vw.1]⟩ q) rfl
  | some q0 =>
      simp only [Option.map_some']
      by_cases hq : q0 ≤ g + vw.2
      · rw [if_pos ((hle _ _).mpr hq), if_pos hq]
      · rw [if_neg (fun hc => hq ((hle _ _).mp hc)), if_neg hq]
        exact Prod.ext
          (pushEntry_cast φ hle
            ⟨g + vw.2 + hf vw.1, c, vw.1, g + vw.2, path ++ [vw.1]⟩ q) rfl

theorem foldl_relax_cast (hadd : ∀ a b : α, φ (a + b) = φ a + φ b)
    (hle : ∀ a b : α, φ a ≤ φ b ↔ a ≤ b) (hf : ℕ → α) (g : α) (path : List ℕ) :
    ∀ (l : List (ℕ × α)) (q : List (Entry α)) (c : ℕ) (enq : List (ℕ × α)),
      (l.map fun p => (p.1, φ p.2)).foldl (relaxOne (fun n => φ (hf n)) (φ g) path)
          (q.map (castEntry φ), c, enq.map fun p => (p.1, φ p.2)) =
        ((l.foldl (relaxOne hf g path) (q, c, enq)).1.map (castEntry φ),
         (l.foldl (relaxOne hf g path) (q, c, enq)).2.1,
         (l.foldl (relaxOne hf g path) (q, c, enq)).2.2.map fun p => (p.1, φ p.2))
  | [], q, c, enq => rfl
  | vw :: l, q, c, enq => by
      simp only [List.map_cons, List.foldl_cons]
      rw [relaxOne_cast φ hadd hle]
      obtain ⟨q', c', enq'⟩ := relaxOne hf g path (q, c, enq) vw
      exact foldl_relax_cast hadd hle hf g path l q' c' enq'

theorem astarAux_cast (hadd : ∀ a b : α, φ (a + b) = φ a + φ b)
    (hle : ∀ a b : α, φ a ≤ φ b ↔ a ≤ b)
    (succ : ℕ → List (ℕ × α)) (hf : ℕ → α) (src tgt : ℕ) :
    ∀ (fuel : ℕ) (st : AState α),
      astarAux (fun u => (succ u).map fun p => (p.1, φ p.2)) (fun n => φ (hf n))
          src tgt fuel (castState φ st) = astarAux succ hf src tgt fuel st
  | 0, _ => rfl
  | fuel + 1, st => by
      obtain ⟨queue, c, enq, explored⟩ := st
      cases queue with
      | nil => rfl
      | cons e rest =>
          show astarAux _ _ src tgt (fuel + 1)
              ⟨castEntry φ e :: rest.map (castEntry φ), c,
               enq.map fun p => (p.1, φ p.2), explored⟩ = _
          simp only [astarAux, castEntry_node, castEntry_path, castEntry_g]
          rw [staleB_cast φ hle]
          by_cases ht : e.node = tgt
          · rw [if_pos ht, if_pos ht]
          · rw [if_neg ht, if_neg ht]
            by_cases hskip : e.node ∈ explored ∧ (e.node = src ∨ staleB enq e.node e.g = true)
            · rw [if_pos hskip, if_pos hskip]
              exact astarAux_cast hadd hle succ hf src tgt fuel ⟨rest, c, enq, explored⟩
            · rw [if_neg hskip, if_neg hskip]
              have hfold := foldl_relax_cast φ hadd hle hf e.g e.path
                (succ e.node) rest c enq
              simp only [hfold]
              exact astarAux_cast hadd hle succ hf src tgt fuel
                ⟨((succ e.node).foldl (relaxOne hf e.g e.path) (rest, c, enq)).1,
                 ((succ e.node).foldl (relaxOne hf e.g e.path) (rest, c, enq)).2.1,
                 ((succ e.node).foldl (relaxOne hf e.g e.path) (rest, c, enq)).2.2,
                 e.node :: explored⟩

theorem astarRun_cast (hadd : ∀ a b : α, φ (a + b) = φ a + φ b) (hzero : φ 0 = 0)
    (hle : ∀ a b : α, φ a ≤ φ b ↔ a ≤ b)
    (succ : ℕ → List (ℕ × α)) (hf : ℕ → α) (src tgt fuel : ℕ) :
    astarRun (fun u => (succ u).map fun p => (p.1, φ p.2)) (fun n => φ (hf n))
        src tgt fuel = astarRun succ hf src tgt fuel := by
  have hinit : (initState src : AState β) = castState φ (initState src) := by
    simp [initState, castState, castEntry, hzero]
  rw [astarRun, astarRun, hinit, astarAux_cast φ hadd hle]

end Transport

/-! ### C1: the claim-level counterexample -/

/-- Successors of the other nodes of `c1Graph` are empty. -/
theorem c1Graph_succ_other (u : ℕ) (h0 : u ≠ 0) (h1 : u ≠ 1) :
    succList c1Graph u = [] := by
  have e0 : ¬ (0 = u) := fun h => h0 h.symm
  have e1 : ¬ (1 = u) := fun h => h1 h.symm
  simp [succList, c1Graph, List.filterMap, e0, e1, firstOccs, firstOccsAux]

/-- The `"short"`-policy successor structure of `c1Graph` is the cast of the
integer structure `c1succZ`. -/
theorem c1_succsLen_eq :
    succsLen c1Graph = fun u => (c1succZ u).map fun p => (p.1, ((p.2 : ℤ) : ℝ)) := by
  funext u
  by_cases h0 : u = 0
  · subst h0
    rw [succsLen, c1Graph_succ_eval.1]
    norm_num [c1succZ]
  · by_cases h1 : u = 1
    · subst h1
      rw [succsLen, c1Graph_succ_eval.2.1]
      norm_num [c1succZ]
    · rw [succsLen, c1Graph_succ_other u h0 h1]
      simp [c1succZ, h0, h1]

/-- The code's heuristic on `c1Graph` towards target 2 is the cast of the
integer heuristic `c1hz`: all nodes share `py = 0`, so `math.hypot`
degenerates to `|px u − px 2|`. -/
theorem c1_hproj_eq : hproj c1Graph 2 = fun u => ((c1hz u : ℤ) : ℝ) := by
  funext u
  rw [hproj]
  by_cases h1 : u = 1
  · subst h1
    have hx : ((c1Graph.px 1 : ℚ) : ℝ) = 100 := by norm_num [c1Graph]
    have hx2 : ((c1Graph.px 2 : ℚ) : ℝ) = 0 := by norm_num [c1Graph]
    have hy : ∀ n, ((c1Graph.py n : ℚ) : ℝ) = 0 := by intro n; norm_num [c1Graph]
    rw [hx, hx2, hy, hy]
    norm_num [c1hz]
    rw [show (10000:ℝ) = 100^2 by norm_num, Real.sqrt_sq (by norm_num : (0:ℝ) ≤ 100)]
  · have hx : ((c1Graph.px u : ℚ) : ℝ) = 0 := by simp [c1Graph, h1]
    have hx2 : ((c1Graph.px 2 : ℚ) : ℝ) = 0 := by norm_num [c1Graph]
    have hy : ∀ n, ((c1Graph.py n : ℚ) : ℝ) = 0 := by intro n; norm_num [c1Graph]
    rw [hx, hx2, hy, hy]
    norm_num [c1hz, h1]

/-- C1 (counterexample): on `c1Graph` the `"short"`-policy search succeeds and
returns the direct route `[0, 2]` of total length 10, although the walk
`[0, 1, 2]` from origin to destination has total length 2 — the returned total
length is not the minimum over all origin→destination paths (the planar
heuristic overestimates through node 1). -/
theorem c1_counterexample :
    routeSearch c1Graph [] [] "short" 0 2 20 = some [0, 2] ∧
    walkCost c1Graph [0, 2] = 10 ∧
    IsWalk c1Graph [0, 1, 2] 0 2 ∧ walkCost c1Graph [0, 1, 2] = 2 ∧ (2 : ℚ) < 10 := by
  refine ⟨?_, c1Graph_walks.1, c1Graph_walks.2.1, c1Graph_walks.2.2, by norm_num⟩
  have hnp : normPref "short" = "short" := by decide
  simp only [routeSearch, hnp, if_pos]
  rw [c1_succsLen_eq, c1_hproj_eq]
  rw [astarRun_cast (φ := (Int.cast : ℤ → ℝ)) (fun a b => by push_cast; ring)
    Int.cast_zero (fun a b => Int.cast_le)]
  exact c1_astar_run_eval

/-! ## A* optimality under a consistent heuristic (towards C1's amended claim)

Walk and weight bookkeeping first. -/

theorem isWalk_nil_iff (G : Graph) (s t : ℕ) : ¬ IsWalk G [] s t := by
  simp [IsWalk]

theorem isWalk_singleton_iff (G : Graph) (a s t : ℕ) :
    IsWalk G [a] s t ↔ s = a ∧ t = a := by
  simp [IsWalk, chainB, eq_comm]

theorem isWalk_cons_iff (G : Graph) (u v : ℕ) (rest : List ℕ) (s t : ℕ) :
    IsWalk G (u :: v :: rest) s t ↔
      s = u ∧ hasEdgeB G u v = true ∧ IsWalk G (v :: rest) v t := by
  unfold IsWalk
  constructor
  · rintro ⟨hs, hl, hc⟩
    have hs' : u = s := by simpa using hs
    rw [List.getLast?_cons_cons] at hl
    have hc' : (hasEdgeB G u v && chainB G (v :: rest)) = true := hc
    rw [Bool.and_eq_true] at hc'
    exact ⟨hs'.symm, hc'.1, rfl, hl, hc'.2⟩
  · rintro ⟨hs, he, _, hl, hc⟩
    refine ⟨by simp [hs], ?_, ?_⟩
    · rw [List.getLast?_cons_cons]
      exact hl
    · show (hasEdgeB G u v && chainB G (v :: rest)) = true
      rw [Bool.and_eq_true]
      exact ⟨he, hc⟩

theorem walkCost_cons₂ (G : Graph) (u v : ℕ) (rest : List ℕ) :
    walkCost G (u :: v :: rest) = wmin G u v + walkCost G (v :: rest) := rfl

/-- A singleton walk costs nothing. -/
theorem walkCost_singleton (G : Graph) (a : ℕ) : walkCost G [a] = 0 := rfl

/-- The minimum of a fold is an element of the candidates. -/
theorem foldl_min_mem : ∀ (l : List ℚ) (a : ℚ), l.foldl min a ∈ a :: l := by
  intro l
  induction l with
  | nil => intro a; simp
  | cons b l ih =>
      intro a
      rw [List.foldl_cons]
      rcases List.mem_cons.mp (ih (min a b)) with h | h
      · rcases min_choice a b with hm | hm
        · rw [h, hm]; simp
        · rw [h, hm]; simp
      · exact List.mem_cons.mpr (Or.inr (List.mem_cons.mpr (Or.inr h)))

/-- The minimum of a fold is below every candidate. -/
theorem foldl_min_le : ∀ (l : List ℚ) (a x : ℚ), x ∈ a :: l → l.foldl min a ≤ x := by
  intro l
  induction l with
  | nil =>
      intro a x hx
      simp only [List.mem_singleton] at hx
      simp [hx]
  | cons b l ih =>
      intro a x hx
      rw [List.foldl_cons]
      rcases List.mem_cons.mp hx with h | h
      · subst h
        exact le_trans (ih (min x b) (min x b) (List.mem_cons_self _ _)) (min_le_left _ _)
      · rcases List.mem_cons.mp h with h' | h'
        · subst h'
          exact le_trans (ih (min a x) (min a x) (List.mem_cons_self _ _)) (min_le_right _ _)
        · exact ih (min a b) x (List.mem_cons.mpr (Or.inr h'))

/-- Membership in the parallel-edge length list is edge membership. -/
theorem parLens_mem (G : Graph) (u v : ℕ) (l : ℚ) :
    l ∈ parLens G u v ↔ (u, v, l) ∈ G.edges := by
  unfold parLens
  rw [List.mem_filterMap]
  constructor
  · rintro ⟨e, he, hsome⟩
    by_cases hc : e.1 = u ∧ e.2.1 = v
    · rw [if_pos hc] at hsome
      obtain ⟨h1, h2⟩ := hc
      obtain rfl := Option.some.inj hsome
      rcases e with ⟨e1, e2, e3⟩
      cases h1
      cases h2
      exact he
    · rw [if_neg hc] at hsome
      cases hsome
  · intro he
    exact ⟨(u, v, l), he, by simp⟩

/-- `hasEdgeB` through the parallel-length list. -/
theorem hasEdgeB_iff (G : Graph) (u v : ℕ) :
    hasEdgeB G u v = true ↔ ∃ l, (u, v, l) ∈ G.edges := by
  unfold hasEdgeB
  rw [List.any_eq_true]
  constructor
  · rintro ⟨e, he, hc⟩
    simp only [Bool.and_eq_true, decide_eq_true_eq] at hc
    rcases e with ⟨e1, e2, e3⟩
    obtain ⟨h1, h2⟩ := hc
    cases h1
    cases h2
    exact ⟨e3, he⟩
  · rintro ⟨l, hl⟩
    exact ⟨(u, v, l), hl, by simp⟩

/-- The bundle weight is one of the parallel lengths. -/
theorem wmin_mem (G : Graph) (u v : ℕ) (h : hasEdgeB G u v = true) :
    (u, v, wmin G u v) ∈ G.edges := by
  obtain ⟨l, hl⟩ := (hasEdgeB_iff G u v).mp h
  have hne : parLens G u v ≠ [] := by
    intro hc
    rw [← parLens_mem] at hl
    rw [hc] at hl
    cases hl
  rw [← parLens_mem]
  unfold wmin
  cases hp : parLens G u v with
  | nil => exact absurd hp hne
  | cons a as => exact foldl_min_mem as a

/-- The bundle weight bounds every parallel length. -/
theorem wmin_le (G : Graph) (u v : ℕ) (l : ℚ) (hl : (u, v, l) ∈ G.edges) :
    wmin G u v ≤ l := by
  rw [← parLens_mem] at hl
  unfold wmin
  cases hp : parLens G u v with
  | nil => rw [hp] at hl; cases hl
  | cons a as =>
      rw [hp] at hl
      exact foldl_min_le as a l hl

/-- Appending an edge to a walk. -/
theorem isWalk_append_edge (G : Graph) :
    ∀ (W : List ℕ) (s y z : ℕ), IsWalk G W s y → hasEdgeB G y z = true →
      IsWalk G (W ++ [z]) s z := by
  intro W
  induction W with
  | nil => intro s y z hw; exact absurd hw (isWalk_nil_iff G s y)
  | cons a rest ih =>
      intro s y z hw he
      cases rest with
      | nil =>
          obtain ⟨hs, hy⟩ := (isWalk_singleton_iff G a s y).mp hw
          rw [hy] at he
          exact (isWalk_cons_iff G a z [] s z).mpr
            ⟨hs, he, (isWalk_singleton_iff G z z z).mpr ⟨rfl, rfl⟩⟩
      | cons b rest' =>
          obtain ⟨hs, hab, hw'⟩ := (isWalk_cons_iff G a b rest' s y).mp hw
          exact (isWalk_cons_iff G a b (rest' ++ [z]) s z).mpr ⟨hs, hab, ih b y z hw' he⟩

/-- Cost of a walk extended by one edge. -/
theorem walkCost_append_edge (G : Graph) :
    ∀ (W : List ℕ) (s y z : ℕ), IsWalk G W s y →
      walkCost G (W ++ [z]) = walkCost G W + wmin G y z := by
  intro W
  induction W with
  | nil => intro s y z hw; exact absurd hw (isWalk_nil_iff G s y)
  | cons a rest ih =>
      intro s y z hw
      cases rest with
      | nil =>
          obtain ⟨hs, hy⟩ := (isWalk_singleton_iff G a s y).mp hw
          rw [hy]
          show wmin G a z + walkCost G [z] = walkCost G [a] + wmin G a z
          rw [walkCost_singleton, walkCost_singleton]
          ring
      | cons b rest' =>
          obtain ⟨hs, hab, hw'⟩ := (isWalk_cons_iff G a b rest' s y).mp hw
          have hrec := ih b y z hw'
          show wmin G a b + walkCost G ((b :: rest') ++ [z]) =
            wmin G a b + walkCost G (b :: rest') + wmin G y z
          rw [hrec]
          ring

/-- The telescoping consistency bound along a walk. -/
theorem heuristic_telescope (G : Graph) (hf : ℕ → ℝ)
    (hcons : ∀ u v, hasEdgeB G u v = true → hf u ≤ (wmin G u v : ℝ) + hf v) :
    ∀ (W : List ℕ) (a b : ℕ), IsWalk G W a b →
      hf a ≤ (walkCost G W : ℝ) + hf b := by
  intro W
  induction W with
  | nil => intro a b hw; exact absurd hw (isWalk_nil_iff G a b)
  | cons x rest ih =>
      intro a b hw
      cases rest with
      | nil =>
          obtain ⟨ha, hb⟩ := (isWalk_singleton_iff G x a b).mp hw
          subst ha
          subst hb
          simp [walkCost_singleton]
      | cons y rest' =>
          obtain ⟨ha, he, hw'⟩ := (isWalk_cons_iff G x y rest' a b).mp hw
          subst ha
          have h1 := hcons a y he
          have h2 := ih y b hw'
          rw [walkCost_cons₂]
          push_cast
          push_cast at h2
          linarith

/-! Successor-list membership. -/

theorem firstOccsAux_mem :
    ∀ (l seen : List ℕ) (x : ℕ), x ∈ firstOccsAux l seen ↔ x ∈ l ∧ x ∉ seen := by
  intro l
  induction l with
  | nil => intro seen x; simp [firstOccsAux]
  | cons a l ih =>
      intro seen x
      unfold firstOccsAux
      by_cases hc : seen.contains a
      · rw [if_pos hc, ih seen x]
        have ha : a ∈ seen := by simpa using hc
        constructor
        · rintro ⟨hx, hn⟩
          exact ⟨List.mem_cons.mpr (Or.inr hx), hn⟩
        · rintro ⟨hx, hn⟩
          rcases List.mem_cons.mp hx with rfl | hx'
          · exact absurd ha hn
          · exact ⟨hx', hn⟩
      · rw [if_neg hc]
        have ha : a ∉ seen := by simpa using hc
        rw [List.mem_cons, ih (a :: seen) x]
        constructor
        · rintro (rfl | ⟨hx, hn⟩)
          · exact ⟨List.mem_cons_self _ _, ha⟩
          · exact ⟨List.mem_cons.mpr (Or.inr hx),
              fun hs => hn (List.mem_cons.mpr (Or.inr hs))⟩
        · rintro ⟨hx, hn⟩
          rcases List.mem_cons.mp hx with rfl | hx'
          · exact Or.inl rfl
          · by_cases hxa : x = a
            · exact Or.inl hxa
            · exact Or.inr ⟨hx', fun hs => by
                rcases List.mem_cons.mp hs with h | h
                · exact hxa h
                · exact hn h⟩

theorem firstOccs_mem (l : List ℕ) (x : ℕ) : x ∈ firstOccs l ↔ x ∈ l := by
  unfold firstOccs
  rw [firstOccsAux_mem]
  simp

theorem succNodes_mem (G : Graph) (u v : ℕ) :
    v ∈ (G.edges.filterMap fun e => if e.1 = u then some e.2.1 else none) ↔
      hasEdgeB G u v = true := by
  rw [List.mem_filterMap, hasEdgeB_iff]
  constructor
  · rintro ⟨e, he, hsome⟩
    by_cases hc : e.1 = u
    · rw [if_pos hc] at hsome
      rcases e with ⟨e1, e2, e3⟩
      obtain rfl := Option.some.inj hsome
      cases hc
      exact ⟨e3, he⟩
    · rw [if_neg hc] at hsome
      cases hsome
  · rintro ⟨l, hl⟩
    exact ⟨(u, v, l), hl, by simp⟩

theorem succList_mem (G : Graph) (u v : ℕ) (w : ℚ) :
    (v, w) ∈ succList G u ↔ hasEdgeB G u v = true ∧ w = wmin G u v := by
  unfold succList
  rw [List.mem_map]
  constructor
  · rintro ⟨v', hv', heq⟩
    obtain ⟨h1, h2⟩ := Prod.mk.injEq _ _ _ _ |>.mp heq
    subst h1
    rw [firstOccs_mem, succNodes_mem] at hv'
    exact ⟨hv', h2.symm⟩
  · rintro ⟨he, rfl⟩
    exact ⟨v, (firstOccs_mem _ _).mpr ((succNodes_mem G u v).mpr he), rfl⟩

theorem succsLen_mem (G : Graph) (u v : ℕ) (w : ℝ) :
    (v, w) ∈ succsLen G u ↔ hasEdgeB G u v = true ∧ w = ((wmin G u v : ℚ) : ℝ) := by
  unfold succsLen
  rw [List.mem_map]
  constructor
  · rintro ⟨p, hp, heq⟩
    obtain ⟨h1, h2⟩ := Prod.mk.injEq _ _ _ _ |>.mp heq
    rcases p with ⟨v', w'⟩
    dsimp only at h1 h2
    subst h1
    obtain ⟨he, hw⟩ := (succList_mem G u v' w').mp hp
    subst hw
    exact ⟨he, h2.symm⟩
  · rintro ⟨he, rfl⟩
    exact ⟨(v, wmin G u v), (succList_mem G u v _).mpr ⟨he, rfl⟩, rfl⟩

/-! Heap operations. -/

section HeapLemmas

variable {α : Type} [LinearOrderedRing α]

theorem mem_pushEntry (e x : Entry α) :
    ∀ q : List (Entry α), x ∈ pushEntry e q ↔ x = e ∨ x ∈ q := by
  intro q
  induction q with
  | nil => simp [pushEntry]
  | cons y ys ih =>
      unfold pushEntry
      by_cases hc : y.f ≤ e.f
      · rw [if_pos hc]
        rw [List.mem_cons, ih, List.mem_cons]
        tauto
      · rw [if_neg hc]
        rw [List.mem_cons, List.mem_cons]

theorem pushEntry_sorted (e : Entry α) :
    ∀ q : List (Entry α), q.Pairwise (fun a b => a.f ≤ b.f) →
      (pushEntry e q).Pairwise (fun a b => a.f ≤ b.f) := by
  intro q
  induction q with
  | nil => intro _; simp [pushEntry]
  | cons y ys ih =>
      intro hp
      rw [List.pairwise_cons] at hp
      unfold pushEntry
      by_cases hc : y.f ≤ e.f
      · rw [if_pos hc]
        rw [List.pairwise_cons]
        constructor
        · intro x hx
          rcases (mem_pushEntry e x ys).mp hx with rfl | hx'
          · exact hc
          · exact hp.1 x hx'
        · exact ih hp.2
      · rw [if_neg hc]
        rw [List.pairwise_cons]
        constructor
        · intro x hx
          rcases List.mem_cons.mp hx with rfl | hx'
          · exact le_of_lt (not_le.mp hc)
          · exact le_trans (le_of_lt (not_le.mp hc)) (hp.1 x hx')
        · exact List.pairwise_cons.mpr hp

theorem alookup_cons (k : ℕ) (v : α) (l : List (ℕ × α)) (x : ℕ) :
    alookup ((k, v) :: l) x = if k = x then some v else alookup l x := by
  unfold alookup
  by_cases hk : k = x
  · rw [if_pos hk]
    rw [List.find?_cons_of_pos _ (by simpa using hk)]
    rfl
  · rw [if_neg hk]
    rw [List.find?_cons_of_neg _ (by simpa using hk)]

end HeapLemmas

/-! Characterization of the successor-relaxation fold. -/

section FoldLemmas

variable {α : Type} [LinearOrderedRing α] (hf : ℕ → α) (g : α) (path : List ℕ)

theorem relaxOne_skip (q : List (Entry α)) (c : ℕ) (enq : List (ℕ × α))
    (vw : ℕ × α) (q0 : α) (h : alookup enq vw.1 = some q0) (hle : q0 ≤ g + vw.2) :
    relaxOne hf g path (q, c, enq) vw = (q, c, enq) := by
  unfold relaxOne
  dsimp only
  rw [h]
  dsimp only
  rw [if_pos hle]

theorem relaxOne_push_some (q : List (Entry α)) (c : ℕ) (enq : List (ℕ × α))
    (vw : ℕ × α) (q0 : α) (h : alookup enq vw.1 = some q0) (hgt : ¬ q0 ≤ g + vw.2) :
    relaxOne hf g path (q, c, enq) vw =
      (pushEntry ⟨g + vw.2 + hf vw.1, c, vw.1, g + vw.2, path ++ [vw.1]⟩ q,
       c + 1, (vw.1, g + vw.2) :: enq) := by
  unfold relaxOne
  dsimp only
  rw [h]
  dsimp only
  rw [if_neg hgt]

theorem relaxOne_push_none (q : List (Entry α)) (c : ℕ) (enq : List (ℕ × α))
    (vw : ℕ × α) (h : alookup enq vw.1 = none) :
    relaxOne hf g path (q, c, enq) vw =
      (pushEntry ⟨g + vw.2 + hf vw.1, c, vw.1, g + vw.2, path ++ [vw.1]⟩ q,
       c + 1, (vw.1, g + vw.2) :: enq) := by
  unfold relaxOne
  dsimp only
  rw [h]

theorem relaxFold_mem_preserve :
    ∀ (l : List (ℕ × α)) (q : List (Entry α)) (c : ℕ) (enq : List (ℕ × α))
      (e' : Entry α), e' ∈ q → e' ∈ (l.foldl (relaxOne hf g path) (q, c, enq)).1 := by
  intro l
  induction l with
  | nil => intro q c enq e' h; exact h
  | cons vw l ih =>
      intro q c enq e' h
      rw [List.foldl_cons]
      cases halo : alookup enq vw.1 with
      | none =>
          rw [relaxOne_push_none hf g path q c enq vw halo]
          exact ih _ _ _ e' ((mem_pushEntry _ _ _).mpr (Or.inr h))
      | some q0 =>
          by_cases hq : q0 ≤ g + vw.2
          · rw [relaxOne_skip hf g path q c enq vw q0 halo hq]
            exact ih _ _ _ e' h
          · rw [relaxOne_push_some hf g path q c enq vw q0 halo hq]
            exact ih _ _ _ e' ((mem_pushEntry _ _ _).mpr (Or.inr h))

theorem relaxFold_queue_src :
    ∀ (l : List (ℕ × α)) (q : List (Entry α)) (c : ℕ) (enq : List (ℕ × α))
      (e' : Entry α), e' ∈ (l.foldl (relaxOne hf g path) (q, c, enq)).1 →
      e' ∈ q ∨ ∃ vw ∈ l, ∃ c',
        e' = ⟨g + vw.2 + hf vw.1, c', vw.1, g + vw.2, path ++ [vw.1]⟩ := by
  intro l
  induction l with
  | nil => intro q c enq e' h; exact Or.inl h
  | cons vw l ih =>
      intro q c enq e' h
      rw [List.foldl_cons] at h
      cases halo : alookup enq vw.1 with
      | none =>
          rw [relaxOne_push_none hf g path q c enq vw halo] at h
          rcases ih _ _ _ e' h with hq | ⟨vw', hvw', c', rfl⟩
          · rcases (mem_pushEntry _ _ _).mp hq with rfl | hq'
            · exact Or.inr ⟨vw, List.mem_cons_self _ _, c, rfl⟩
            · exact Or.inl hq'
          · exact Or.inr ⟨vw', List.mem_cons.mpr (Or.inr hvw'), c', rfl⟩
      | some q0 =>
          by_cases hq : q0 ≤ g + vw.2
          · rw [relaxOne_skip hf g path q c enq vw q0 halo hq] at h
            rcases ih _ _ _ e' h with hq' | ⟨vw', hvw', c', rfl⟩
            · exact Or.inl hq'
            · exact Or.inr ⟨vw', List.mem_cons.mpr (Or.inr hvw'), c', rfl⟩
          · rw [relaxOne_push_some hf g path q c enq vw q0 halo hq] at h
            rcases ih _ _ _ e' h with hq' | ⟨vw', hvw', c', rfl⟩
            · rcases (mem_pushEntry _ _ _).mp hq' with rfl | hq''
              · exact Or.inr ⟨vw, List.mem_cons_self _ _, c, rfl⟩
              · exact Or.inl hq''
            · exact Or.inr ⟨vw', List.mem_cons.mpr (Or.inr hvw'), c', rfl⟩

theorem relaxFold_sorted :
    ∀ (l : List (ℕ × α)) (q : List (Entry α)) (c : ℕ) (enq : List (ℕ × α)),
      q.Pairwise (fun a b => a.f ≤ b.f) →
      (l.foldl (relaxOne hf g path) (q, c, enq)).1.Pairwise (fun a b => a.f ≤ b.f) := by
  intro l
  induction l with
  | nil => intro q c enq h; exact h
  | cons vw l ih =>
      intro q c enq h
      rw [List.foldl_cons]
      cases halo : alookup enq vw.1 with
      | none =>
          rw [relaxOne_push_none hf g path q c enq vw halo]
          exact ih _ _ _ (pushEntry_sorted _ _ h)
      | some q0 =>
          by_cases hq : q0 ≤ g + vw.2
          · rw [relaxOne_skip hf g path q c enq vw q0 halo hq]
            exact ih _ _ _ h
          · rw [relaxOne_push_some hf g path q c enq vw q0 halo hq]
            exact ih _ _ _ (pushEntry_sorted _ _ h)

theorem relaxFold_enq_decrease :
    ∀ (l : List (ℕ × α)) (q : List (Entry α)) (c : ℕ) (enq : List (ℕ × α))
      (x : ℕ) (q0 : α), alookup enq x = some q0 →
      ∃ q', alookup (l.foldl (relaxOne hf g path) (q, c, enq)).2.2 x = some q' ∧ q' ≤ q0 := by
  intro l
  induction l with
  | nil => intro q c enq x q0 h; exact ⟨q0, h, le_refl q0⟩
  | cons vw l ih =>
      intro q c enq x q0 h
      rw [List.foldl_cons]
      cases halo : alookup enq vw.1 with
      | none =>
          rw [relaxOne_push_none hf g path q c enq vw halo]
          have hx : vw.1 ≠ x := fun hc => by rw [hc, h] at halo; cases halo
          have h' : alookup ((vw.1, g + vw.2) :: enq) x = some q0 := by
            rw [alookup_cons, if_neg hx]
            exact h
          exact ih _ _ _ x q0 h'
      | some q1 =>
          by_cases hq : q1 ≤ g + vw.2
          · rw [relaxOne_skip hf g path q c enq vw q1 halo hq]
            exact ih _ _ _ x q0 h
          · rw [relaxOne_push_some hf g path q c enq vw q1 halo hq]
            by_cases hx : vw.1 = x
            · subst hx
              rw [h] at halo
              obtain rfl := Option.some.inj halo
              have h' : alookup ((vw.1, g + vw.2) :: enq) vw.1 = some (g + vw.2) := by
                rw [alookup_cons, if_pos rfl]
              obtain ⟨q', hq', hle⟩ := ih _ _ _ vw.1 (g + vw.2) h'
              exact ⟨q', hq', le_trans hle (le_of_lt (not_le.mp hq))⟩
            · have h' : alookup ((vw.1, g + vw.2) :: enq) x = some q0 := by
                rw [alookup_cons, if_neg hx]
                exact h
              exact ih _ _ _ x q0 h'

theorem relaxFold_enq_bound :
    ∀ (l : List (ℕ × α)) (q : List (Entry α)) (c : ℕ) (enq : List (ℕ × α))
      (vw : ℕ × α), vw ∈ l →
      ∃ q', alookup (l.foldl (relaxOne hf g path) (q, c, enq)).2.2 vw.1 = some q' ∧
        q' ≤ g + vw.2 := by
  intro l
  induction l with
  | nil => intro q c enq vw h; cases h
  | cons vw0 l ih =>
      intro q c enq vw h
      rw [List.foldl_cons]
      rcases List.mem_cons.mp h with rfl | htail
      · cases halo : alookup enq vw.1 with
        | none =>
            rw [relaxOne_push_none hf g path q c enq vw halo]
            have h' : alookup ((vw.1, g + vw.2) :: enq) vw.1 = some (g + vw.2) := by
              rw [alookup_cons, if_pos rfl]
            obtain ⟨q', hq', hle⟩ := relaxFold_enq_decrease hf g path l _ _ _ _ _ h'
            exact ⟨q', hq', hle⟩
        | some q1 =>
            by_cases hq : q1 ≤ g + vw.2
            · rw [relaxOne_skip hf g path q c enq vw q1 halo hq]
              obtain ⟨q', hq', hle⟩ := relaxFold_enq_decrease hf g path l _ _ _ _ _ halo
              exact ⟨q', hq', le_trans hle hq⟩
            · rw [relaxOne_push_some hf g path q c enq vw q1 halo hq]
              have h' : alookup ((vw.1, g + vw.2) :: enq) vw.1 = some (g + vw.2) := by
                rw [alookup_cons, if_pos rfl]
              obtain ⟨q', hq', hle⟩ := relaxFold_enq_decrease hf g path l _ _ _ _ _ h'
              exact ⟨q', hq', hle⟩
      · cases halo : alookup enq vw0.1 with
        | none =>
            rw [relaxOne_push_none hf g path q c enq vw0 halo]
            exact ih _ _ _ vw htail
        | some q1 =>
            by_cases hq : q1 ≤ g + vw0.2
            · rw [relaxOne_skip hf g path q c enq vw0 q1 halo hq]
              exact ih _ _ _ vw htail
            · rw [relaxOne_push_some hf g path q c enq vw0 q1 halo hq]
              exact ih _ _ _ vw htail

theorem relaxFold_enq_src :
    ∀ (l : List (ℕ × α)) (q : List (Entry α)) (c : ℕ) (enq : List (ℕ × α))
      (x : ℕ) (q' : α),
      alookup (l.foldl (relaxOne hf g path) (q, c, enq)).2.2 x = some q' →
      alookup enq x = some q' ∨
        ∃ c', (⟨q' + hf x, c', x, q', path ++ [x]⟩ : Entry α) ∈
          (l.foldl (relaxOne hf g path) (q, c, enq)).1 := by
  intro l
  induction l with
  | nil => intro q c enq x q' h; exact Or.inl h
  | cons vw l ih =>
      intro q c enq x q' h
      rw [List.foldl_cons] at h ⊢
      cases halo : alookup enq vw.1 with
      | none =>
          rw [relaxOne_push_none hf g path q c enq vw halo] at h ⊢
          rcases ih _ _ _ x q' h with hold | ⟨c', hmem⟩
          · rw [alookup_cons] at hold
            by_cases hx : vw.1 = x
            · rw [if_pos hx] at hold
              obtain rfl := Option.some.inj hold
              subst hx
              exact Or.inr ⟨c, relaxFold_mem_preserve hf g path l _ _ _ _
                ((mem_pushEntry _ _ _).mpr (Or.inl rfl))⟩
            · rw [if_neg hx] at hold
              exact Or.inl hold
          · exact Or.inr ⟨c', hmem⟩
      | some q0 =>
          by_cases hq : q0 ≤ g + vw.2
          · rw [relaxOne_skip hf g path q c enq vw q0 halo hq] at h ⊢
            exact ih _ _ _ x q' h
          · rw [relaxOne_push_some hf g path q c enq vw q0 halo hq] at h ⊢
            rcases ih _ _ _ x q' h with hold | ⟨c', hmem⟩
            · rw [alookup_cons] at hold
              by_cases hx : vw.1 = x
              · rw [if_pos hx] at hold
                obtain rfl := Option.some.inj hold
                subst hx
                exact Or.inr ⟨c, relaxFold_mem_preserve hf g path l _ _ _ _
                  ((mem_pushEntry _ _ _).mpr (Or.inl rfl))⟩
              · rw [if_neg hx] at hold
                exact Or.inl hold
            · exact Or.inr ⟨c', hmem⟩

theorem relaxFold_identity :
    ∀ (l : List (ℕ × α)) (q : List (Entry α)) (c : ℕ) (enq : List (ℕ × α)),
      (∀ vw ∈ l, ∃ q0, alookup enq vw.1 = some q0 ∧ q0 ≤ g + vw.2) →
      l.foldl (relaxOne hf g path) (q, c, enq) = (q, c, enq) := by
  intro l
  induction l with
  | nil => intro q c enq _; rfl
  | cons vw0 l ih =>
      intro q c enq hb
      rw [List.foldl_cons]
      obtain ⟨q0, hq0, hle⟩ := hb vw0 (List.mem_cons_self _ _)
      rw [relaxOne_skip hf g path q c enq vw0 q0 hq0 hle]
      exact ih _ _ _ fun vw hvw => hb vw (List.mem_cons.mpr (Or.inr hvw))

end FoldLemmas

/-! The A* loop invariant and its preservation.  All of it is stated at ℝ for
the `"short"`-policy instantiation `astarRun (succsLen G) (hproj G tgt)`. -/

theorem walkCost_nonneg (G : Graph) (hw : ∀ e ∈ G.edges, 0 ≤ e.2.2) :
    ∀ p : List ℕ, chainB G p = true → 0 ≤ walkCost G p := by
  intro p
  induction p with
  | nil => intro _; exact le_refl 0
  | cons a p ih =>
      intro hc
      cases p with
      | nil => exact le_refl 0
      | cons b rest =>
          unfold chainB at hc
          rw [Bool.and_eq_true] at hc
          rw [walkCost_cons₂]
          exact add_nonneg (hw _ (wmin_mem G a b hc.1)) (ih hc.2)

theorem isWalk_snoc_decomp (G : Graph) :
    ∀ (W : List ℕ) (s z : ℕ), IsWalk G W s z → 2 ≤ W.length →
      ∃ W' y, W = W' ++ [z] ∧ IsWalk G W' s y ∧ hasEdgeB G y z = true ∧
        walkCost G W = walkCost G W' + wmin G y z := by
  intro W
  induction W with
  | nil => intro s z hW _; exact absurd hW (isWalk_nil_iff G s z)
  | cons a W₁ ih =>
      intro s z hW hlen
      cases W₁ with
      | nil => simp at hlen
      | cons b W₂ =>
          obtain ⟨hs, hab, hW₁⟩ := (isWalk_cons_iff G a b W₂ s z).mp hW
          cases W₂ with
          | nil =>
              obtain ⟨_, hz⟩ := (isWalk_singleton_iff G b b z).mp hW₁
              subst hz
              refine ⟨[a], a, rfl, (isWalk_singleton_iff G a s a).mpr ⟨hs, rfl⟩, hab, ?_⟩
              rw [walkCost_cons₂, walkCost_singleton, walkCost_singleton]
              ring
          | cons c W₃ =>
              have hlen' : 2 ≤ (b :: c :: W₃).length := by
                simp [List.length_cons]
              obtain ⟨W', y, heq, hW', hadj, hcost⟩ := ih b z hW₁ hlen'
              obtain ⟨tl, rfl⟩ : ∃ tl, W' = b :: tl := by
                cases W' with
                | nil => exact absurd hW' (isWalk_nil_iff G b y)
                | cons w ws =>
                    have : w = b := by
                      have h1 := hW'.1
                      simpa using h1
                    exact ⟨ws, by rw [this]⟩
              refine ⟨a :: b :: tl, y, ?_, ?_, hadj, ?_⟩
              · rw [heq]
                rfl
              · exact (isWalk_cons_iff G a b tl s y).mpr ⟨hs, hab, hW'⟩
              · rw [walkCost_cons₂, hcost, walkCost_cons₂]
                ring

/-- The loop invariant of the A* search: the heap is sorted by stored priority;
every heap entry carries a genuine walk from the source whose cost is its `g`
and whose priority is `g + h` (the initial source entry carries priority and
cost `0`); for every explored node `u`, every successor `v` and every source
walk `W` to `u`, the enqueued best cost of `v` is at most `cost W + wmin u v`;
every enqueued unexplored node has a live heap entry realizing its enqueued
cost; an unexplored source keeps an entry of priority at most `h src`; and the
target is never explored. -/
structure AInv (G : Graph) (hf : ℕ → ℝ) (src tgt : ℕ) (st : AState ℝ) : Prop where
  sortedQ : st.queue.Pairwise (fun a b => a.f ≤ b.f)
  entries : ∀ e ∈ st.queue, IsWalk G e.path src e.node ∧
    (walkCost G e.path : ℝ) = e.g ∧ (e.f = e.g + hf e.node ∨ (e.g = 0 ∧ e.f = 0))
  adequate : ∀ u ∈ st.explored, ∀ v, hasEdgeB G u v = true →
    ∀ W, IsWalk G W src u → ∃ qv, alookup st.enq v = some qv ∧
      qv ≤ (walkCost G W : ℝ) + (wmin G u v : ℝ)
  live : ∀ x qx, alookup st.enq x = some qx → x ∉ st.explored →
    ∃ e ∈ st.queue, e.node = x ∧ e.g = qx ∧ e.f ≤ e.g + hf x
  srcLive : src ∉ st.explored → ∃ e ∈ st.queue, e.node = src ∧ e.f ≤ hf src
  tgtFree : tgt ∉ st.explored

theorem initInv (G : Graph) (hf : ℕ → ℝ) (src tgt : ℕ) (hfnn : ∀ u, 0 ≤ hf u) :
    AInv G hf src tgt (initState src) := by
  refine ⟨?_, ?_, ?_, ?_, ?_, ?_⟩
  · simp [initState]
  · intro e he
    simp only [initState, List.mem_singleton] at he
    subst he
    refine ⟨(isWalk_singleton_iff G src src src).mpr ⟨rfl, rfl⟩, ?_, Or.inr ⟨rfl, rfl⟩⟩
    simp [walkCost_singleton]
  · intro u hu
    simp [initState] at hu
  · intro x qx h
    simp [initState, alookup] at h
  · intro _
    exact ⟨⟨0, 0, src, 0, [src]⟩, by simp [initState], rfl, by simpa using hfnn src⟩
  · simp [initState]

/-- The frontier covers every source walk: for any walk `W` to an unexplored
node `z` the heap holds an entry of priority at most `cost W + h z`. -/
theorem astar_cover (G : Graph) (hf : ℕ → ℝ) (src tgt : ℕ)
    (hcons : ∀ u v, hasEdgeB G u v = true → hf u ≤ (wmin G u v : ℝ) + hf v)
    (st : AState ℝ) (inv : AInv G hf src tgt st) :
    ∀ (n : ℕ) (W : List ℕ) (z : ℕ), W.length ≤ n → IsWalk G W src z →
      z ∉ st.explored → ∃ e ∈ st.queue, e.f ≤ (walkCost G W : ℝ) + hf z := by
  intro n
  induction n with
  | zero =>
      intro W z hlen hW _
      rw [Nat.le_zero, List.length_eq_zero] at hlen
      subst hlen
      exact absurd hW (isWalk_nil_iff G src z)
  | succ n ih =>
      intro W z hlen hW hz
      by_cases h2 : 2 ≤ W.length
      · obtain ⟨W', y, hWeq, hW', hadj, hcost⟩ := isWalk_snoc_decomp G W src z hW h2
        by_cases hy : y ∈ st.explored
        · obtain ⟨qz, hqz, hle⟩ := inv.adequate y hy z hadj W' hW'
          obtain ⟨e, heq, _, hg, hfle⟩ := inv.live z qz hqz hz
          refine ⟨e, heq, ?_⟩
          rw [hcost]
          push_cast
          calc e.f ≤ e.g + hf z := hfle
            _ = qz + hf z := by rw [hg]
            _ ≤ (walkCost G W' : ℝ) + (wmin G y z : ℝ) + hf z :=
                add_le_add_right hle _
        · obtain ⟨e, heq, hef⟩ := ih W' y (by
              have hL : W.length = W'.length + 1 := by rw [hWeq]; simp
              omega) hW' hy
          refine ⟨e, heq, ?_⟩
          rw [hcost]
          push_cast
          calc e.f ≤ (walkCost G W' : ℝ) + hf y := hef
            _ ≤ (walkCost G W' : ℝ) + ((wmin G y z : ℝ) + hf z) :=
                add_le_add_left (hcons y z hadj) _
            _ = (walkCost G W' : ℝ) + (wmin G y z : ℝ) + hf z := by ring
      · cases W with
        | nil => exact absurd hW (isWalk_nil_iff G src z)
        | cons a W₁ =>
            cases W₁ with
            | cons b W₂ =>
                exfalso
                have hL : (a :: b :: W₂).length = W₂.length + 2 := by simp
                omega
            | nil =>
                obtain ⟨hsa, hza⟩ := (isWalk_singleton_iff G a src z).mp hW
                have hzsrc : z = src := by rw [hza, hsa]
                rw [hzsrc] at hz ⊢
                obtain ⟨e, heq, _, hef⟩ := inv.srcLive hz
                refine ⟨e, heq, ?_⟩
                rw [walkCost_singleton]
                simpa using hef

/-- Pop optimality: when the head of the heap carries an unexplored node, its
`g` is at most the cost of every source walk to that node. -/
theorem astar_pop_opt (G : Graph) (hf : ℕ → ℝ) (src tgt : ℕ)
    (hw : ∀ e ∈ G.edges, 0 ≤ e.2.2)
    (hcons : ∀ u v, hasEdgeB G u v = true → hf u ≤ (wmin G u v : ℝ) + hf v)
    (st : AState ℝ) (inv : AInv G hf src tgt st) (e₀ : Entry ℝ)
    (rest : List (Entry ℝ)) (hq : st.queue = e₀ :: rest)
    (hnx : e₀.node ∉ st.explored) :
    ∀ W, IsWalk G W src e₀.node → e₀.g ≤ (walkCost G W : ℝ) := by
  intro W hW
  obtain ⟨e, heq, hef⟩ :=
    astar_cover G hf src tgt hcons st inv W.length W e₀.node le_rfl hW hnx
  have hsorted := inv.sortedQ
  rw [hq] at hsorted heq
  have h0f : e₀.f ≤ e.f := by
    rcases List.mem_cons.mp heq with rfl | hr
    · exact le_refl _
    · exact (List.pairwise_cons.mp hsorted).1 e hr
  have hent := inv.entries e₀ (by rw [hq]; exact List.mem_cons_self _ _)
  rcases hent.2.2 with hA | ⟨hg0, _⟩
  · have hchain : e₀.g + hf e₀.node ≤ (walkCost G W : ℝ) + hf e₀.node := by
      calc e₀.g + hf e₀.node = e₀.f := hA.symm
        _ ≤ e.f := h0f
        _ ≤ _ := hef
    exact le_of_add_le_add_right hchain
  · rw [hg0]
    exact_mod_cast walkCost_nonneg G hw W hW.2.2

/-- Invariant preservation for the stale-pop branch. -/
theorem inv_skip (G : Graph) (hf : ℕ → ℝ) (src tgt : ℕ)
    (st : AState ℝ) (inv : AInv G hf src tgt st) (e₀ : Entry ℝ)
    (rest : List (Entry ℝ)) (hq : st.queue = e₀ :: rest)
    (hX : e₀.node ∈ st.explored) :
    AInv G hf src tgt ⟨rest, st.ctr, st.enq, st.explored⟩ := by
  refine ⟨?_, ?_, ?_, ?_, ?_, ?_⟩
  · have hs := inv.sortedQ
    rw [hq] at hs
    exact (List.pairwise_cons.mp hs).2
  · intro e he
    exact inv.entries e (by rw [hq]; exact List.mem_cons.mpr (Or.inr he))
  · exact inv.adequate
  · intro x qx hx hnx
    obtain ⟨e, heq, hnode, hg, hfle⟩ := inv.live x qx hx hnx
    rw [hq] at heq
    rcases List.mem_cons.mp heq with rfl | hr
    · exact absurd (hnode ▸ hX) hnx
    · exact ⟨e, hr, hnode, hg, hfle⟩
  · intro hs
    obtain ⟨e, heq, hnode, hef⟩ := inv.srcLive hs
    rw [hq] at heq
    rcases List.mem_cons.mp heq with rfl | hr
    · exact absurd (hnode ▸ hX) hs
    · exact ⟨e, hr, hnode, hef⟩
  · exact inv.tgtFree

/-- Invariant preservation for a re-expansion pop (the popped node is already
explored; the successor fold will be shown to be the identity separately). -/
theorem inv_reexpand (G : Graph) (hf : ℕ → ℝ) (src tgt : ℕ)
    (st : AState ℝ) (inv : AInv G hf src tgt st) (e₀ : Entry ℝ)
    (rest : List (Entry ℝ)) (hq : st.queue = e₀ :: rest)
    (hX : e₀.node ∈ st.explored) (htgt : e₀.node ≠ tgt) :
    AInv G hf src tgt ⟨rest, st.ctr, st.enq, e₀.node :: st.explored⟩ := by
  refine ⟨?_, ?_, ?_, ?_, ?_, ?_⟩
  · have hs := inv.sortedQ
    rw [hq] at hs
    exact (List.pairwise_cons.mp hs).2
  · intro e he
    exact inv.entries e (by rw [hq]; exact List.mem_cons.mpr (Or.inr he))
  · intro u hu v hadj W hWk
    rcases List.mem_cons.mp hu with rfl | huX
    · exact inv.adequate _ hX v hadj W hWk
    · exact inv.adequate u huX v hadj W hWk
  · intro x qx hx hnx
    rw [List.mem_cons] at hnx
    push_neg at hnx
    obtain ⟨hxne, hxX⟩ := hnx
    obtain ⟨e, heq, hnode, hg, hfle⟩ := inv.live x qx hx hxX
    rw [hq] at heq
    rcases List.mem_cons.mp heq with rfl | hr
    · exact absurd hnode.symm hxne
    · exact ⟨e, hr, hnode, hg, hfle⟩
  · intro hs
    rw [List.mem_cons] at hs
    push_neg at hs
    obtain ⟨hsne, hsX⟩ := hs
    obtain ⟨e, heq, hnode, hef⟩ := inv.srcLive hsX
    rw [hq] at heq
    rcases List.mem_cons.mp heq with rfl | hr
    · exact absurd hnode.symm hsne
    · exact ⟨e, hr, hnode, hef⟩
  · intro hmem
    rcases List.mem_cons.mp hmem with h | h
    · exact htgt h.symm
    · exact inv.tgtFree h

/-- Invariant preservation for a fresh expansion pop: the popped node is
unexplored, all its successors are relaxed and it is marked explored. -/
theorem inv_expand (G : Graph) (hf : ℕ → ℝ) (src tgt : ℕ)
    (hw : ∀ e ∈ G.edges, 0 ≤ e.2.2)
    (hcons : ∀ u v, hasEdgeB G u v = true → hf u ≤ (wmin G u v : ℝ) + hf v)
    (st : AState ℝ) (inv : AInv G hf src tgt st) (e₀ : Entry ℝ)
    (rest : List (Entry ℝ)) (hq : st.queue = e₀ :: rest)
    (hnX : e₀.node ∉ st.explored) (htgt : e₀.node ≠ tgt) :
    AInv G hf src tgt
      ⟨((succsLen G e₀.node).foldl (relaxOne hf e₀.g e₀.path) (rest, st.ctr, st.enq)).1,
       ((succsLen G e₀.node).foldl (relaxOne hf e₀.g e₀.path) (rest, st.ctr, st.enq)).2.1,
       ((succsLen G e₀.node).foldl (relaxOne hf e₀.g e₀.path) (rest, st.ctr, st.enq)).2.2,
       e₀.node :: st.explored⟩ := by
  obtain ⟨hWk₀, hc₀, _⟩ := inv.entries e₀ (by rw [hq]; exact List.mem_cons_self _ _)
  have htail : rest.Pairwise (fun a b => a.f ≤ b.f) := by
    have hs := inv.sortedQ
    rw [hq] at hs
    exact (List.pairwise_cons.mp hs).2
  refine ⟨?_, ?_, ?_, ?_, ?_, ?_⟩
  · exact relaxFold_sorted hf e₀.g e₀.path (succsLen G e₀.node) rest st.ctr st.enq htail
  · intro e he
    rcases relaxFold_queue_src hf e₀.g e₀.path (succsLen G e₀.node) rest st.ctr st.enq
      e he with hr | ⟨vw, hvw, c', rfl⟩
    · exact inv.entries e (by rw [hq]; exact List.mem_cons.mpr (Or.inr hr))
    · rcases vw with ⟨v, wt⟩
      obtain ⟨hadj, hwt⟩ := (succsLen_mem G e₀.node v wt).mp hvw
      subst hwt
      refine ⟨isWalk_append_edge G e₀.path src e₀.node v hWk₀ hadj, ?_, Or.inl rfl⟩
      rw [walkCost_append_edge G e₀.path src e₀.node v hWk₀]
      push_cast
      rw [hc₀]
  · intro u hu v hadj W hWk
    rcases List.mem_cons.mp hu with rfl | huX
    · have hvw : (v, ((wmin G e₀.node v : ℚ) : ℝ)) ∈ succsLen G e₀.node :=
        (succsLen_mem G e₀.node v _).mpr ⟨hadj, rfl⟩
      obtain ⟨q', hq', hle⟩ := relaxFold_enq_bound hf e₀.g e₀.path
        (succsLen G e₀.node) rest st.ctr st.enq (v, ((wmin G e₀.node v : ℚ) : ℝ)) hvw
      have hopt := astar_pop_opt G hf src tgt hw hcons st inv e₀ rest hq hnX W hWk
      refine ⟨q', hq', ?_⟩
      calc q' ≤ e₀.g + (wmin G e₀.node v : ℝ) := hle
        _ ≤ (walkCost G W : ℝ) + (wmin G e₀.node v : ℝ) := add_le_add_right hopt _
    · obtain ⟨qv, hqv, hle⟩ := inv.adequate u huX v hadj W hWk
      obtain ⟨q', hq', hdec⟩ := relaxFold_enq_decrease hf e₀.g e₀.path
        (succsLen G e₀.node) rest st.ctr st.enq v qv hqv
      exact ⟨q', hq', le_trans hdec hle⟩
  · intro x qx hx hnx
    rw [List.mem_cons] at hnx
    push_neg at hnx
    obtain ⟨hxne, hxX⟩ := hnx
    rcases relaxFold_enq_src hf e₀.g e₀.path (succsLen G e₀.node) rest st.ctr st.enq
      x qx hx with hold | ⟨c', hmem⟩
    · obtain ⟨e, heq, hnode, hg, hfle⟩ := inv.live x qx hold hxX
      rw [hq] at heq
      rcases List.mem_cons.mp heq with rfl | hr
      · exact absurd hnode.symm hxne
      · exact ⟨e, relaxFold_mem_preserve hf e₀.g e₀.path (succsLen G e₀.node)
          rest st.ctr st.enq e hr, hnode, hg, hfle⟩
    · exact ⟨⟨qx + hf x, c', x, qx, e₀.path ++ [x]⟩, hmem, rfl, rfl, le_refl _⟩
  · intro hs
    rw [List.mem_cons] at hs
    push_neg at hs
    obtain ⟨hsne, hsX⟩ := hs
    obtain ⟨e, heq, hnode, hef⟩ := inv.srcLive hsX
    rw [hq] at heq
    rcases List.mem_cons.mp heq with rfl | hr
    · exact absurd hnode.symm hsne
    · exact ⟨e, relaxFold_mem_preserve hf e₀.g e₀.path (succsLen G e₀.node)
        rest st.ctr st.enq e hr, hnode, hef⟩
  · intro hmem
    rcases List.mem_cons.mp hmem with h | h
    · exact htgt h.symm
    · exact inv.tgtFree h

/-- Main loop correctness: from any invariant state, a successful run of the
`"short"`-policy A* loop returns a source→target walk of minimum cost. -/
theorem astarAux_opt (G : Graph) (hf : ℕ → ℝ) (src tgt : ℕ)
    (hw : ∀ e ∈ G.edges, 0 ≤ e.2.2)
    (hcons : ∀ u v, hasEdgeB G u v = true → hf u ≤ (wmin G u v : ℝ) + hf v) :
    ∀ (fuel : ℕ) (st : AState ℝ), AInv G hf src tgt st →
      ∀ p, astarAux (succsLen G) hf src tgt fuel st = some p →
        IsWalk G p src tgt ∧ ∀ W, IsWalk G W src tgt → walkCost G p ≤ walkCost G W := by
  intro fuel
  induction fuel with
  | zero =>
      intro st _ p h
      unfold astarAux at h
      cases h
  | succ fuel ih =>
      intro st inv p h
      unfold astarAux at h
      cases hq : st.queue with
      | nil =>
          rw [hq] at h
          dsimp only at h
          cases h
      | cons e₀ rest =>
          rw [hq] at h
          dsimp only at h
          by_cases htgt : e₀.node = tgt
          · rw [if_pos htgt] at h
            obtain rfl := Option.some.inj h
            obtain ⟨hWk₀, hc₀, _⟩ :=
              inv.entries e₀ (by rw [hq]; exact List.mem_cons_self _ _)
            constructor
            · rw [← htgt]
              exact hWk₀
            · intro W hWk
              have hopt := astar_pop_opt G hf src tgt hw hcons st inv e₀ rest hq
                (by rw [htgt]; exact inv.tgtFree) W (by rw [htgt]; exact hWk)
              rw [← hc₀] at hopt
              exact_mod_cast hopt
          · rw [if_neg htgt] at h
            by_cases hskip : e₀.node ∈ st.explored ∧
                (e₀.node = src ∨ staleB st.enq e₀.node e₀.g = true)
            · rw [if_pos hskip] at h
              exact ih ⟨rest, st.ctr, st.enq, st.explored⟩
                (inv_skip G hf src tgt st inv e₀ rest hq hskip.1) p h
            · rw [if_neg hskip] at h
              by_cases hX : e₀.node ∈ st.explored
              · have hid : (succsLen G e₀.node).foldl (relaxOne hf e₀.g e₀.path)
                    (rest, st.ctr, st.enq) = (rest, st.ctr, st.enq) := by
                  apply relaxFold_identity
                  intro vw hvw
                  rcases vw with ⟨v, wt⟩
                  obtain ⟨hadj, hwt⟩ := (succsLen_mem G e₀.node v wt).mp hvw
                  subst hwt
                  obtain ⟨hWk₀, hc₀, _⟩ :=
                    inv.entries e₀ (by rw [hq]; exact List.mem_cons_self _ _)
                  obtain ⟨qv, hqv, hle⟩ := inv.adequate e₀.node hX v hadj e₀.path hWk₀
                  rw [hc₀] at hle
                  exact ⟨qv, hqv, hle⟩
                rw [hid] at h
                exact ih ⟨rest, st.ctr, st.enq, e₀.node :: st.explored⟩
                  (inv_reexpand G hf src tgt st inv e₀ rest hq hX htgt) p h
              · exact ih _
                  (inv_expand G hf src tgt hw hcons st inv e₀ rest hq hX htgt) p h

/-- A full `"short"`-policy A* run that succeeds returns a source→target walk
of minimum total length (nonnegative edge lengths, per-edge consistent
nonnegative heuristic). -/
theorem astarRun_opt (G : Graph) (hf : ℕ → ℝ) (src tgt : ℕ)
    (hw : ∀ e ∈ G.edges, 0 ≤ e.2.2)
    (hcons : ∀ u v, hasEdgeB G u v = true → hf u ≤ (wmin G u v : ℝ) + hf v)
    (hfnn : ∀ u, 0 ≤ hf u) (fuel : ℕ) (p : List ℕ)
    (h : astarRun (succsLen G) hf src tgt fuel = some p) :
    IsWalk G p src tgt ∧ ∀ W, IsWalk G W src tgt → walkCost G p ≤ walkCost G W :=
  astarAux_opt G hf src tgt hw hcons fuel (initState src)
    (initInv G hf src tgt hfnn) p h

/-- C1 (amended): when every edge length is nonnegative and the projected
planar heuristic of `route` is consistent towards the destination (per edge,
`h(u) ≤ wmin(u,v) + h(v)`), a successful `"short"`-policy search returns a
walk from the snapped origin to the snapped destination whose total length is
minimal among all such walks. -/
theorem c1_amended_shortest_optimal (G : Graph) (src tgt fuel : ℕ) (p : List ℕ)
    (hw : ∀ e ∈ G.edges, 0 ≤ e.2.2)
    (hcons : ∀ u v, hasEdgeB G u v = true →
      hproj G tgt u ≤ (wmin G u v : ℝ) + hproj G tgt v)
    (h : routeSearch G [] [] "short" src tgt fuel = some p) :
    IsWalk G p src tgt ∧ ∀ W, IsWalk G W src tgt → walkCost G p ≤ walkCost G W := by
  have hnp : normPref "short" = "short" := by decide
  simp only [routeSearch, hnp, if_pos] at h
  exact astarRun_opt G (hproj G tgt) src tgt hw hcons
    (fun u => Real.sqrt_nonneg _) fuel p h

/-- Witness graph for the amended C1: a single edge `0 → 1` of length 5 with
all coordinates zero, so the projected heuristic vanishes and is trivially
consistent. -/
def gwGraph : Graph where
  edges := [(0, 1, 5)]
  x := fun _ => 0
  y := fun _ => 0
  px := fun _ => 0
  py := fun _ => 0

/-- The integer successor structure of `gwGraph`. -/
def gwSuccZ : ℕ → List (ℕ × ℤ) := fun u => if u = 0 then [(1, 5)] else []

/-- The (identically zero) integer heuristic of `gwGraph` towards node 1. -/
def gwHz : ℕ → ℤ := fun _ => 0

theorem gwGraph_succ_other (u : ℕ) (h0 : u ≠ 0) : succList gwGraph u = [] := by
  have e0 : ¬ (0 = u) := fun h => h0 h.symm
  simp [succList, gwGraph, List.filterMap, e0, firstOccs, firstOccsAux]

theorem gw_succsLen_eq :
    succsLen gwGraph = fun u => (gwSuccZ u).map fun p => (p.1, ((p.2 : ℤ) : ℝ)) := by
  funext u
  by_cases h0 : u = 0
  · subst h0
    rw [succsLen, (by decide : succList gwGraph 0 = [(1, 5)])]
    norm_num [gwSuccZ]
  · rw [succsLen, gwGraph_succ_other u h0]
    simp [gwSuccZ, h0]

theorem gw_hproj_eq : hproj gwGraph 1 = fun u => ((gwHz u : ℤ) : ℝ) := by
  funext u
  rw [hproj]
  have hx : ∀ n, ((gwGraph.px n : ℚ) : ℝ) = 0 := by intro n; norm_num [gwGraph]
  have hy : ∀ n, ((gwGraph.py n : ℚ) : ℝ) = 0 := by intro n; norm_num [gwGraph]
  rw [hx, hx, hy, hy]
  norm_num [gwHz]

theorem gw_astar_run_eval : astarRun gwSuccZ gwHz 0 1 5 = some [0, 1] := by
  decide

theorem gw_routeSearch_eval :
    routeSearch gwGraph [] [] "short" 0 1 5 = some [0, 1] := by
  have hnp : normPref "short" = "short" := by decide
  simp only [routeSearch, hnp, if_pos]
  rw [gw_succsLen_eq, gw_hproj_eq]
  rw [astarRun_cast (φ := (Int.cast : ℤ → ℝ)) (fun a b => by push_cast; ring)
    Int.cast_zero (fun a b => Int.cast_le)]
  exact gw_astar_run_eval

/-- Witness for the amended C1: on the one-edge graph the search returns
`[0, 1]`, a walk from 0 to 1 of minimum total length. -/
theorem c1_amended_witness :
    IsWalk gwGraph [0, 1] 0 1 ∧
      ∀ W, IsWalk gwGraph W 0 1 → walkCost gwGraph [0, 1] ≤ walkCost gwGraph W :=
  c1_amended_shortest_optimal gwGraph 0 1 5 [0, 1]
    (by decide)
    (by
      intro u v hadj
      have hz : ∀ x, hproj gwGraph 1 x = 0 := by
        intro x
        rw [gw_hproj_eq]
        norm_num [gwHz]
      rw [hz u, hz v]
      have hm : (u, v, wmin gwGraph u v) ∈ [((0 : ℕ), (1 : ℕ), (5 : ℚ))] :=
        wmin_mem gwGraph u v hadj
      rw [List.mem_singleton] at hm
      have h5 : wmin gwGraph u v = 5 := by
        have hc := congrArg (fun t => (t : ℕ × ℕ × ℚ).2.2) hm
        simpa using hc
      rw [h5]
      norm_num)
    gw_routeSearch_eval

end StreetRouting
